import Mathlib

/-!
# bids-util: request signatures and password credentials

A shallow embedding of `headers/authsig.go` and `passwords/hashing.go`.

Go strings and byte slices are lists of bytes.  The wall clock, the random
source and the two cryptographic primitives (HMAC-SHA256, Argon2id) are
explicit arguments.  The Go library routines the two files call
(`strconv.ParseInt`, `time.Duration.Seconds`, `base64.RawStdEncoding`,
`subtle.ConstantTimeCompare`) are embedded from the library's code.
-/

/-- A Go `byte`. -/
abbrev Byte := Fin 256

/-- The bytes of an ASCII text (code points reduced modulo 256). -/
def ascii (s : String) : List Byte :=
  s.data.map (fun c => Fin.ofNat c.toNat)

/-- Conversion of an integer to `int64`: two's complement wrap-around. -/
def wrapInt64 (x : Int) : Int :=
  (x + 9223372036854775808) % 18446744073709551616 - 9223372036854775808

/-- The values an `int64` can hold. -/
def IsInt64 (x : Int) : Prop :=
  -9223372036854775808 ≤ x ∧ x ≤ 9223372036854775807

instance (x : Int) : Decidable (IsInt64 x) := by
  unfold IsInt64; infer_instance

/-! ## strconv.ParseInt(s, 10, 64) -/

namespace strconv

/-- The two errors of `strconv`: `ErrSyntax` and `ErrRange`. -/
inductive NumError where
  | ErrSyntax
  | ErrRange
  deriving DecidableEq, Repr

/-- Value of `maxUint64`. -/
def maxUint64 : Nat := 18446744073709551615

/-- Helper `lower(c)` of `strconv`: `c | ('x' - 'X')`. -/
def lower (c : Byte) : Nat := c.val ||| 32

/-- The digit loop of `ParseUint(s, 10, 64)`, started with accumulator `n`.
`cutoff` is `maxUint64/10 + 1`, `maxVal` is `1<<64 - 1`; the sum `n + d` is
taken in `uint64`. -/
def parseUintLoop : List Byte → Nat → Except NumError Nat
  | [], n => .ok n
  | c :: cs, n =>
    if 48 ≤ c.val ∧ c.val ≤ 57 then
      let d := c.val - 48
      if d ≥ 10 then .error .ErrSyntax
      else if n ≥ maxUint64 / 10 + 1 then .error .ErrRange
      else
        let n10 := n * 10
        let n1 := (n10 + d) % 18446744073709551616
        if n1 < n10 ∨ n1 > maxUint64 then .error .ErrRange
        else parseUintLoop cs n1
    else if 97 ≤ lower c ∧ lower c ≤ 122 then
      let d := lower c - 97 + 10
      if d ≥ 10 then .error .ErrSyntax
      else .error .ErrSyntax
    else .error .ErrSyntax

/-- Base 10, 64 bit `ParseUint`: the empty text is a syntax error. -/
def ParseUint (s : List Byte) : Except NumError Nat :=
  match s with
  | [] => .error .ErrSyntax
  | _ => parseUintLoop s 0

/-- The range check that ends `ParseInt`, on the magnitude `un` and the
sign: `cutoff` is `1 << 63`, and the result is `int64(un)`, negated when
the text began with a minus sign. -/
def signedOfUint (neg : Bool) (un : Nat) : Except NumError Int :=
  if !neg && un ≥ 9223372036854775808 then .error .ErrRange
  else if neg && un > 9223372036854775808 then .error .ErrRange
  else
    let n := wrapInt64 (un : Int)
    .ok (if neg then wrapInt64 (-n) else n)

/-- The part of `ParseInt` after the sign has been taken off: `ParseUint`
on the rest, whose syntax error is returned at once and whose range error
carries the value `maxUint64` on to the range check. -/
def parseSigned (neg : Bool) (body : List Byte) : Except NumError Int :=
  match ParseUint body with
  | .error .ErrSyntax => .error .ErrSyntax
  | .error .ErrRange => signedOfUint neg maxUint64
  | .ok un => signedOfUint neg un

/-- Base 10, 64 bit `ParseInt`: the empty text is a syntax error; a leading
"+" or "-" is taken off, and the rest is parsed as an unsigned number. -/
def ParseInt (s : List Byte) : Except NumError Int :=
  match s with
  | [] => .error .ErrSyntax
  | c :: rest =>
    parseSigned (decide (c.val = 45))
      (if c.val = 43 then rest else if c.val = 45 then rest else c :: rest)

end strconv

/-! ## time.Duration.Seconds and the conversion to int64 -/

namespace time

/-- Nearest integer, ties to the even one. -/
def roundHalfEven (q : ℚ) : ℤ :=
  let f := ⌊q⌋
  let r := q - f
  if r < 1 / 2 then f
  else if 1 / 2 < r then f + 1
  else if f % 2 = 0 then f else f + 1

/-- Rounding of a real value to the nearest `float64` (53 bit significand,
ties to even).  Exponent range is not limited: the values met here lie
between `1e-9` and `1e10` in magnitude, far from overflow and underflow. -/
def float64 (q : ℚ) : ℚ :=
  if q = 0 then 0
  else
    let e := Int.log 2 |q|
    (roundHalfEven (q / (2 : ℚ) ^ (e - 52)) : ℚ) * (2 : ℚ) ^ (e - 52)

/-- Method `Seconds` of `Duration`, a count `d` of nanoseconds:
`sec := d / Second; nsec := d % Second; float64(sec) + float64(nsec)/1e9`,
with Go's truncated integer division. -/
def Seconds (d : Int) : ℚ :=
  let sec := Int.tdiv d 1000000000
  let nsec := Int.tmod d 1000000000
  float64 (float64 (sec : ℚ) + float64 (float64 (nsec : ℚ) / 1000000000))

/-- Conversion `int64(f)` of a float: the fraction is discarded. -/
def truncToInt64 (q : ℚ) : Int :=
  wrapInt64 (if 0 ≤ q then ⌊q⌋ else ⌈q⌉)

end time

/-! ## crypto/subtle -/

namespace subtle

/-- Go's `ConstantTimeByteEq(x, y)` is `int((uint32(x^y) - 1) >> 31)`. -/
def ConstantTimeByteEq (x y : Nat) : Nat :=
  (((x ^^^ y) + 4294967296 - 1) % 4294967296) >>> 31

/-- Go's `ConstantTimeCompare(x, y)`: 0 when the lengths differ, else the
bytewise xor is or-ed into one byte that is compared with 0. -/
def ConstantTimeCompare (x y : List Byte) : Nat :=
  if x.length ≠ y.length then 0
  else
    ConstantTimeByteEq
      ((List.zip x y).foldl (fun v ab => v ||| (ab.1.val ^^^ ab.2.val)) 0) 0

end subtle

/-! ## encoding/base64, RawStdEncoding -/

namespace base64

/-- The standard alphabet, the 64 byte table `enc.encode`. -/
def encodeStd : List Byte :=
  ascii "ABCDEFGHIJKLMNOPQRSTUVWXYZabcdefghijklmnopqrstuvwxyz0123456789+/"

/-- Table lookup `enc.encode[i]`. -/
def encodeByte (i : Nat) : Byte := encodeStd.getD i 0

/-- The table `enc.decodeMap`: the index of the byte in the alphabet, and
`0xff` for a byte that is not in it. -/
def decodeMap (c : Byte) : Nat :=
  if c ∈ encodeStd then encodeStd.indexOf c else 255

/-- Method `Encode` of `RawStdEncoding` (no padding character): whole
groups of three bytes give four characters, a rest of two bytes gives
three characters and a rest of one byte gives two. -/
def EncodeToString : List Byte → List Byte
  | a :: b :: c :: rest =>
    let val := a.val <<< 16 ||| b.val <<< 8 ||| c.val
    encodeByte (val >>> 18 &&& 63) :: encodeByte (val >>> 12 &&& 63) ::
      encodeByte (val >>> 6 &&& 63) :: encodeByte (val &&& 63) :: EncodeToString rest
  | [a, b] =>
    let val := a.val <<< 16 ||| b.val <<< 8
    [encodeByte (val >>> 18 &&& 63), encodeByte (val >>> 12 &&& 63),
      encodeByte (val >>> 6 &&& 63)]
  | [a] =>
    let val := a.val <<< 16
    [encodeByte (val >>> 18 &&& 63), encodeByte (val >>> 12 &&& 63)]
  | [] => []

/-- The bytes a quantum of `dlen` collected 6 bit values yields:
`val := d0<<18 | d1<<12 | d2<<6 | d3`, of which `dlen - 1` bytes are kept. -/
def quantumBytes (dbuf : List Nat) : List Byte :=
  let val := dbuf.getD 0 0 <<< 18 ||| dbuf.getD 1 0 <<< 12 ||| dbuf.getD 2 0 <<< 6 |||
    dbuf.getD 3 0
  ([Fin.ofNat (val >>> 16), Fin.ofNat (val >>> 8), Fin.ofNat val] : List Byte).take
    (dbuf.length - 1)

/-- Method `Decode` of `RawStdEncoding`, as the repetition of
`decodeQuantum`: `dbuf` holds the 6 bit values of the quantum being read.
CR and LF are skipped, every other byte outside the alphabet is a
`CorruptInputError` (`none`), and so is an input that ends one character
into a quantum. The encoding is not strict: unused low bits are dropped. -/
def decodeLoop : List Byte → List Nat → Option (List Byte)
  | [], dbuf =>
    if dbuf.length = 0 then some []
    else if dbuf.length = 1 then none
    else some (quantumBytes dbuf)
  | c :: cs, dbuf =>
    if decodeMap c ≠ 255 then
      if dbuf.length + 1 = 4 then
        (decodeLoop cs []).map (fun out => quantumBytes (dbuf ++ [decodeMap c]) ++ out)
      else decodeLoop cs (dbuf ++ [decodeMap c])
    else if c.val = 10 ∨ c.val = 13 then decodeLoop cs dbuf
    else none

/-- Method `DecodeString` of `RawStdEncoding`. -/
def DecodeString (s : List Byte) : Option (List Byte) := decodeLoop s []

end base64

/-! ## The primitives and the environment -/

/-- The two cryptographic functions the package imports, with the length
of their output: `hmacSHA256 key msg` is the 32 byte HMAC-SHA256 tag, and
`argon2id password salt time memory threads keyLen` the Argon2id key of
`keyLen` bytes. -/
structure Primitives where
  hmacSHA256 : List Byte → List Byte → List Byte
  argon2id : List Byte → List Byte → Nat → Nat → Nat → Nat → List Byte
  hmacSHA256_length : ∀ key msg, (hmacSHA256 key msg).length = 32
  argon2id_length : ∀ password salt time memory threads keyLen,
    (argon2id password salt time memory threads keyLen).length = keyLen

/-- The random source behind `rand.Read`: asked for `n` bytes it fails
(`none`) or fills the whole buffer. -/
structure RandSource where
  Read : Nat → Option (List Byte)
  Read_length : ∀ n salt, Read n = some salt → salt.length = n

/-- Result of a call that may panic instead of returning. -/
inductive Outcome (α : Type) where
  | returned (a : α)
  | panicked
  deriving DecidableEq, Repr

namespace hmac

/-- Go's `hmac.Equal(mac1, mac2)` is `subtle.ConstantTimeCompare(mac1, mac2) == 1`. -/
def Equal (mac1 mac2 : List Byte) : Bool :=
  subtle.ConstantTimeCompare mac1 mac2 = 1

end hmac

namespace argon2

/-- Go's `argon2.IDKey`: `deriveKey` panics when `time < 1` or `threads < 1`,
and `blake2bHash` dereferences the nil hash that `blake2b.New(0, nil)` returns
when the requested key is empty. -/
def IDKey (pr : Primitives) (password salt : List Byte) (time memory threads keyLen : Nat) :
    Outcome (List Byte) :=
  if time < 1 then .panicked
  else if threads < 1 then .panicked
  else if keyLen < 1 then .panicked
  else .returned (pr.argon2id password salt time memory threads keyLen)

end argon2

/-! ## headers/authsig.go -/

namespace headers

/-- The four errors of `VerifyAuthSignature`, in the order of its checks:
"missing required auth headers", "invalid X-Auth-Ts: ..." (wrapping the
`strconv` error), "X-Auth-Ts out of allowed range", "invalid X-Auth-Sig". -/
inductive AuthError where
  | missingHeaders
  | invalidTs (e : strconv.NumError)
  | tsOutOfRange
  | invalidSig
  deriving DecidableEq, Repr

/-- Function `VerifyAuthSignature`; `none` is the `nil` error. `now` is
the value of `time.Now().Unix()` and `maxSkew` the `time.Duration` in
nanoseconds; the sums `now ± int64(maxSkew.Seconds())` are `int64` sums. -/
def VerifyAuthSignature (pr : Primitives) (now : Int) (secret tsStr claimsB64 sig : List Byte)
    (maxSkew : Int) : Option AuthError :=
  if tsStr = [] ∨ claimsB64 = [] ∨ sig = [] then some .missingHeaders
  else
    match strconv.ParseInt tsStr with
    | .error e => some (.invalidTs e)
    | .ok ts =>
      if ts > wrapInt64 (now + time.truncToInt64 (time.Seconds maxSkew)) ∨
          ts < wrapInt64 (now - time.truncToInt64 (time.Seconds maxSkew)) then
        some .tsOutOfRange
      else
        let msg := tsStr ++ ascii "." ++ claimsB64
        let expectedSig := pr.hmacSHA256 secret msg
        let expectedSigB64 := base64.EncodeToString expectedSig
        if !hmac.Equal expectedSigB64 sig then some .invalidSig
        else none

/-- Function `ComputeAuthSignature`. -/
def ComputeAuthSignature (pr : Primitives) (secret tsStr claimsB64 : List Byte) : List Byte :=
  let msg := tsStr ++ ascii "." ++ claimsB64
  base64.EncodeToString (pr.hmacSHA256 secret msg)

end headers

/-! ## passwords/hashing.go -/

namespace password

/-- The struct `Params`: `Time`, `Memory`, `KeyLen`, `SaltLen` are `uint32`,
`Threads` is `uint8`. -/
structure Params where
  Time : Fin 4294967296
  Memory : Fin 4294967296
  Threads : Fin 256
  KeyLen : Fin 4294967296
  SaltLen : Fin 4294967296
  deriving DecidableEq, Repr

/-- The variable `DefaultParams`. -/
def DefaultParams : Params :=
  { Time := 2, Memory := 19 * 1024, Threads := 1, KeyLen := 32, SaltLen := 16 }

/-- The errors of the package: "password must not be empty", "invalid
argon2 parameters", "read salt: ...", "decode salt: ...", "decode hash: ...". -/
inductive PwError where
  | emptyPassword
  | invalidParams
  | readSalt
  | decodeSalt
  | decodeHash
  deriving DecidableEq, Repr

/-- The three results `(saltB64, hashB64, err)` of `HashPassword`. -/
structure HashResult where
  saltB64 : List Byte
  hashB64 : List Byte
  err : Option PwError
  deriving DecidableEq, Repr

/-- Function `HashPassword`. -/
def HashPassword (pr : Primitives) (rnd : RandSource) (password : List Byte) (p : Params) :
    Outcome HashResult :=
  if password = [] then .returned ⟨[], [], some .emptyPassword⟩
  else if p.Time.val = 0 ∨ p.Memory.val = 0 ∨ p.Threads.val = 0 ∨ p.KeyLen.val = 0 ∨
      p.SaltLen.val = 0 then
    .returned ⟨[], [], some .invalidParams⟩
  else
    match rnd.Read p.SaltLen.val with
    | none => .returned ⟨[], [], some .readSalt⟩
    | some salt =>
      match argon2.IDKey pr password salt p.Time.val p.Memory.val p.Threads.val p.KeyLen.val with
      | .panicked => .panicked
      | .returned hash =>
        .returned ⟨base64.EncodeToString salt, base64.EncodeToString hash, none⟩

/-- Function `VerifyPassword`, with results `(ok, err)`; the key length
passed on is `uint32(len(wantHash))`. -/
def VerifyPassword (pr : Primitives) (password saltB64 hashB64 : List Byte) (p : Params) :
    Outcome (Bool × Option PwError) :=
  match base64.DecodeString saltB64 with
  | none => .returned (false, some .decodeSalt)
  | some salt =>
    match base64.DecodeString hashB64 with
    | none => .returned (false, some .decodeHash)
    | some wantHash =>
      match argon2.IDKey pr password salt p.Time.val p.Memory.val p.Threads.val
          (wantHash.length % 4294967296) with
      | .panicked => .panicked
      | .returned gotHash =>
        .returned (decide (subtle.ConstantTimeCompare gotHash wantHash = 1), none)

end password

/-- A stand-in for the primitives, used to run the definitions: constant
outputs of the right length. -/
def Primitives.sample : Primitives where
  hmacSHA256 := fun _ _ => List.replicate 32 0
  argon2id := fun _ _ _ _ _ keyLen => List.replicate keyLen 0
  hmacSHA256_length := by intros; simp
  argon2id_length := by intros; simp

/-- A random source that delivers zero bytes. -/
def RandSource.zeros : RandSource where
  Read := fun n => some (List.replicate n 0)
  Read_length := by intro n salt h; cases h; simp

/-! ## The specification's notions -/

namespace Spec

/-- A decimal digit, "0" to "9". -/
def IsDigit (c : Byte) : Prop := 48 ≤ c.val ∧ c.val ≤ 57

instance (c : Byte) : Decidable (IsDigit c) := by
  unfold IsDigit; infer_instance

/-- The number a string of decimal digits denotes. -/
def decimalValue (digits : List Byte) : Nat :=
  digits.foldl (fun n c => n * 10 + (c.val - 48)) 0

/-- The integer a text denotes as a base-10 signed integer: an optional
leading "+" or "-", then one or more decimal digits and nothing else. -/
def signedDecimal (s : List Byte) : Option Int :=
  match s with
  | [] => none
  | c :: rest =>
    if c.val = 43 then
      if rest ≠ [] ∧ ∀ d ∈ rest, IsDigit d then some (decimalValue rest : Int) else none
    else if c.val = 45 then
      if rest ≠ [] ∧ ∀ d ∈ rest, IsDigit d then some (-(decimalValue rest : Int)) else none
    else if ∀ d ∈ c :: rest, IsDigit d then some (decimalValue (c :: rest) : Int) else none

/-- The text parses as a base-10 signed integer of 64 bits. -/
def ParsesAsInt64 (s : List Byte) : Prop :=
  ∃ t, signedDecimal s = some t ∧ IsInt64 t

instance (s : List Byte) : Decidable (ParsesAsInt64 s) :=
  match h : signedDecimal s with
  | none => isFalse (by
      rintro ⟨t, h1, _⟩
      rw [h] at h1
      cases h1)
  | some t =>
    if ht : IsInt64 t then isTrue ⟨t, h, ht⟩
    else isFalse (by
      rintro ⟨u, h1, h2⟩
      rw [h] at h1
      cases h1
      exact ht h2)

/-- Unpadded standard base64 text: every byte is one of the 64 characters
of the standard alphabet (so no "=" and no white space), and the length is
not 1 modulo 4. -/
def IsRawStdBase64 (s : List Byte) : Prop :=
  (∀ c ∈ s, c ∈ base64.encodeStd) ∧ s.length % 4 ≠ 1

instance (s : List Byte) : Decidable (IsRawStdBase64 s) := by
  unfold IsRawStdBase64; infer_instance

/-- The text without its CR and LF bytes. -/
def dropNewlines (s : List Byte) : List Byte :=
  s.filter (fun c => !(c.val == 10 || c.val == 13))

/-- At least one of the five fields of `Params` is zero. -/
def HasZeroField (p : password.Params) : Prop :=
  p.Time.val = 0 ∨ p.Memory.val = 0 ∨ p.Threads.val = 0 ∨ p.KeyLen.val = 0 ∨ p.SaltLen.val = 0

instance (p : password.Params) : Decidable (HasZeroField p) := by
  unfold HasZeroField; infer_instance

/-- The window rounded to whole seconds, as the specification words it: the
whole number of seconds nearest to the window of `d` nanoseconds (a half
is rounded up). -/
def roundedSeconds (d : Int) : Int :=
  round ((d : ℚ) / 1000000000)

end Spec

/-! ## Lemmas: integer wrap-around -/

theorem wrapInt64_of_isInt64 {x : Int} (h : IsInt64 x) : wrapInt64 x = x := by
  unfold IsInt64 at h
  unfold wrapInt64
  omega

theorem wrapInt64_isInt64 (x : Int) : IsInt64 (wrapInt64 x) := by
  unfold IsInt64 wrapInt64
  omega

/-! ## Lemmas: constant time comparison -/

namespace subtle

theorem or_eq_zero {a b : Nat} : a ||| b = 0 ↔ a = 0 ∧ b = 0 := by
  constructor
  · intro h
    have hbit : ∀ i, a.testBit i = false ∧ b.testBit i = false := by
      intro i
      have := congrArg (fun n => n.testBit i) h
      simpa [Nat.testBit_or] using this
    constructor
    · apply Nat.eq_of_testBit_eq
      intro i
      simp [(hbit i).1]
    · apply Nat.eq_of_testBit_eq
      intro i
      simp [(hbit i).2]
  · rintro ⟨rfl, rfl⟩
    simp

theorem foldl_or_eq_zero (l : List (Byte × Byte)) (v : Nat) :
    l.foldl (fun v ab => v ||| (ab.1.val ^^^ ab.2.val)) v = 0 ↔
      v = 0 ∧ ∀ ab ∈ l, ab.1 = ab.2 := by
  induction l generalizing v with
  | nil => simp
  | cons ab l ih =>
    rw [List.foldl_cons, ih]
    simp only [or_eq_zero, Nat.xor_eq_zero, List.mem_cons, forall_eq_or_imp,
      Fin.val_inj]
    tauto

theorem foldl_or_lt (l : List (Byte × Byte)) (v : Nat) (hv : v < 256) :
    l.foldl (fun v ab => v ||| (ab.1.val ^^^ ab.2.val)) v < 256 := by
  induction l generalizing v with
  | nil => simpa using hv
  | cons ab l ih =>
    rw [List.foldl_cons]
    apply ih
    have h1 : ab.1.val ^^^ ab.2.val < 2 ^ 8 := Nat.xor_lt_two_pow ab.1.isLt ab.2.isLt
    exact Nat.or_lt_two_pow (n := 8) hv h1

theorem ConstantTimeByteEq_zero (v : Nat) (hv : v < 256) :
    ConstantTimeByteEq v 0 = 1 ↔ v = 0 := by
  unfold ConstantTimeByteEq
  rw [Nat.xor_zero, Nat.shiftRight_eq_div_pow]
  constructor
  · intro h
    by_contra hne
    have : (v + 4294967296 - 1) % 4294967296 = v - 1 := by omega
    rw [this] at h
    have : (v - 1) / 2 ^ 31 = 0 := Nat.div_eq_of_lt (by norm_num; omega)
    omega
  · rintro rfl
    norm_num

theorem zip_all_eq {x y : List Byte} (h : x.length = y.length) :
    (∀ ab ∈ List.zip x y, ab.1 = ab.2) ↔ x = y := by
  induction x generalizing y with
  | nil =>
    cases y with
    | nil => simp
    | cons b y => simp at h
  | cons a x ih =>
    cases y with
    | nil => simp at h
    | cons b y =>
      simp only [List.length_cons, Nat.add_right_cancel_iff] at h
      simp only [List.zip_cons_cons, List.mem_cons, forall_eq_or_imp, List.cons.injEq]
      rw [ih h]

/-- The comparison returns 1 exactly on equal byte strings. -/
theorem ConstantTimeCompare_eq_one_iff (x y : List Byte) :
    ConstantTimeCompare x y = 1 ↔ x = y := by
  unfold ConstantTimeCompare
  by_cases hlen : x.length = y.length
  · rw [if_neg (by simpa using hlen), ConstantTimeByteEq_zero _ (foldl_or_lt _ 0 (by norm_num)),
      foldl_or_eq_zero, zip_all_eq hlen]
    simp
  · rw [if_pos hlen]
    constructor
    · intro h; exact absurd h (by norm_num)
    · intro h; exact absurd (congrArg List.length h) hlen

end subtle

theorem hmac.Equal_iff (x y : List Byte) : hmac.Equal x y = true ↔ x = y := by
  unfold hmac.Equal
  rw [decide_eq_true_iff, subtle.ConstantTimeCompare_eq_one_iff]

/-! ## Lemmas: a window of whole seconds -/

namespace time

theorem roundHalfEven_intCast (m : ℤ) : roundHalfEven (m : ℚ) = m := by
  unfold roundHalfEven
  simp

/-- An integer below `2^53` in magnitude is a `float64`. -/
theorem float64_intCast (n : ℤ) (h : |n| < 2 ^ 53) : float64 (n : ℚ) = n := by
  unfold float64
  by_cases hn : (n : ℚ) = 0
  · simp [hn]
  rw [if_neg hn]
  have hpos : (0 : ℚ) < |(n : ℚ)| := abs_pos.mpr hn
  have hlt : |(n : ℚ)| < ((2 : ℕ) : ℚ) ^ (53 : ℤ) := by
    have h' : ((|n| : ℤ) : ℚ) < ((2 ^ 53 : ℤ) : ℚ) := Int.cast_lt.mpr h
    rw [Int.cast_abs] at h'
    norm_num at h' ⊢
    exact h'
  have he : Int.log 2 |(n : ℚ)| < 53 :=
    (Int.lt_zpow_iff_log_lt (b := 2) (by norm_num) hpos).mp hlt
  obtain ⟨k, hk⟩ : ∃ k : ℕ, Int.log 2 |(n : ℚ)| - 52 = -(k : ℤ) :=
    ⟨(52 - Int.log 2 |(n : ℚ)|).toNat, by omega⟩
  simp only []
  rw [hk, zpow_neg, zpow_natCast, div_inv_eq_mul]
  have hcast : (n : ℚ) * (2 : ℚ) ^ k = ((n * 2 ^ k : ℤ) : ℚ) := by push_cast; ring
  rw [hcast, roundHalfEven_intCast]
  push_cast
  field_simp

theorem Seconds_wholeSeconds (w : ℤ) (h : IsInt64 (w * 1000000000)) :
    Seconds (w * 1000000000) = w := by
  unfold IsInt64 at h
  have hw : |w| < 2 ^ 53 := by
    rw [abs_lt]
    constructor <;> omega
  unfold Seconds
  have h1 : Int.tdiv (w * 1000000000) 1000000000 = w :=
    Int.mul_tdiv_cancel w (by norm_num)
  have h2 : Int.tmod (w * 1000000000) 1000000000 = 0 := Int.mul_tmod_left w 1000000000
  simp only [h1, h2]
  have h0 : float64 ((0 : ℤ) : ℚ) = 0 := by simp [float64]
  rw [h0]
  simp only [Int.cast_zero, zero_div]
  have h0' : float64 (0 : ℚ) = 0 := by simp [float64]
  rw [h0', add_zero, float64_intCast w hw, float64_intCast w hw]

theorem truncToInt64_intCast (w : ℤ) (h : IsInt64 w) : truncToInt64 (w : ℚ) = w := by
  unfold truncToInt64
  have : (if (0 : ℚ) ≤ (w : ℚ) then ⌊(w : ℚ)⌋ else ⌈(w : ℚ)⌉) = w := by
    split <;> simp
  rw [this, wrapInt64_of_isInt64 h]

/-- For a window of `w` whole seconds, `int64(maxSkew.Seconds())` is `w`. -/
theorem skew_wholeSeconds (w : ℤ) (h : IsInt64 (w * 1000000000)) :
    truncToInt64 (Seconds (w * 1000000000)) = w := by
  rw [Seconds_wholeSeconds w h]
  apply truncToInt64_intCast
  unfold IsInt64 at h ⊢
  omega

end time

/-! ## Lemmas: base64 -/

namespace base64

theorem or_eq_add {x y : Nat} (k : Nat) (hx : x % 2 ^ k = 0) (hy : y < 2 ^ k) :
    x ||| y = x + y := by
  have h := Nat.mul_add_lt_is_or hy (x / 2 ^ k)
  have hx' : 2 ^ k * (x / 2 ^ k) = x := Nat.mul_div_cancel' (Nat.dvd_of_mod_eq_zero hx)
  rw [hx'] at h
  exact h.symm

theorem and_63 (x : Nat) : x &&& 63 = x % 64 :=
  Nat.and_pow_two_sub_one_eq_mod x 6

set_option maxRecDepth 100000 in
theorem decodeMap_encodeByte_fin : ∀ i : Fin 64, decodeMap (encodeByte i.val) = i.val := by
  decide

theorem decodeMap_encodeByte {i : Nat} (h : i < 64) : decodeMap (encodeByte i) = i :=
  decodeMap_encodeByte_fin ⟨i, h⟩

theorem decodeMap_lt_or (c : Byte) : decodeMap c < 64 ∨ decodeMap c = 255 := by
  unfold decodeMap
  split
  · left
    rename_i h
    have := List.indexOf_lt_length.mpr h
    simpa [encodeStd, ascii] using this
  · right; rfl

theorem decodeMap_ne_255_iff (c : Byte) : decodeMap c ≠ 255 ↔ c ∈ encodeStd := by
  constructor
  · intro h
    by_contra hc
    exact h (by simp [decodeMap, hc])
  · intro h
    have : decodeMap c < 64 := by
      rcases decodeMap_lt_or c with h1 | h1
      · exact h1
      · exfalso
        unfold decodeMap at h1
        rw [if_pos h] at h1
        have := List.indexOf_lt_length.mpr h
        rw [h1] at this
        simp [encodeStd, ascii] at this
    omega

end base64

namespace base64

theorem orShift3 (a b c : Nat) (hb : b < 256) (hc : c < 256) :
    a <<< 16 ||| b <<< 8 ||| c = a * 65536 + b * 256 + c := by
  simp only [Nat.shiftLeft_eq]
  have h1 : a * 2 ^ 16 ||| b * 2 ^ 8 = a * 2 ^ 16 + b * 2 ^ 8 :=
    or_eq_add 16 (by omega) (by omega)
  rw [h1, or_eq_add 8 (by omega) (by omega)]
  norm_num

theorem orShift4 (s0 s1 s2 s3 : Nat) (h1 : s1 < 64) (h2 : s2 < 64) (h3 : s3 < 64) :
    s0 <<< 18 ||| s1 <<< 12 ||| s2 <<< 6 ||| s3 = s0 * 262144 + s1 * 4096 + s2 * 64 + s3 := by
  simp only [Nat.shiftLeft_eq]
  have h1 : s0 * 2 ^ 18 ||| s1 * 2 ^ 12 = s0 * 2 ^ 18 + s1 * 2 ^ 12 :=
    or_eq_add 18 (by omega) (by omega)
  have h2 : s0 * 2 ^ 18 + s1 * 2 ^ 12 ||| s2 * 2 ^ 6 = s0 * 2 ^ 18 + s1 * 2 ^ 12 + s2 * 2 ^ 6 :=
    or_eq_add 12 (by omega) (by omega)
  rw [h1, h2, or_eq_add 6 (by omega) (by omega)]
  norm_num

theorem decodeLoop_cons_enc (s : Nat) (hs : s < 64) (cs : List Byte) (dbuf : List Nat) :
    decodeLoop (encodeByte s :: cs) dbuf =
      if dbuf.length + 1 = 4 then
        (decodeLoop cs []).map (fun out => quantumBytes (dbuf ++ [s]) ++ out)
      else decodeLoop cs (dbuf ++ [s]) := by
  rw [decodeLoop, decodeMap_encodeByte hs, if_pos (by omega)]

/-- Three bytes, cut into four 6 bit values, are put together again. -/
theorem quantumBytes_four (a b c : Byte) :
    quantumBytes
      [(a.val * 65536 + b.val * 256 + c.val) / 262144 % 64,
        (a.val * 65536 + b.val * 256 + c.val) / 4096 % 64,
        (a.val * 65536 + b.val * 256 + c.val) / 64 % 64,
        (a.val * 65536 + b.val * 256 + c.val) % 64] = [a, b, c] := by
  have ha := a.isLt
  have hb := b.isLt
  have hc := c.isLt
  unfold quantumBytes
  simp only [List.getD_cons_zero, List.getD_cons_succ, List.length_cons, List.length_nil]
  rw [orShift4 _ _ _ _ (Nat.mod_lt _ (by norm_num)) (Nat.mod_lt _ (by norm_num))
    (Nat.mod_lt _ (by norm_num))]
  simp only [Nat.shiftRight_eq_div_pow, List.take, List.cons.injEq, and_true]
  refine ⟨?_, ?_, ?_⟩ <;> apply Fin.ext <;> simp only [Fin.ofNat, Fin.val_mk] <;> omega

theorem quantumBytes_three (a b : Byte) :
    quantumBytes
      [(a.val * 65536 + b.val * 256) / 262144 % 64,
        (a.val * 65536 + b.val * 256) / 4096 % 64,
        (a.val * 65536 + b.val * 256) / 64 % 64] = [a, b] := by
  have ha := a.isLt
  have hb := b.isLt
  unfold quantumBytes
  simp only [List.getD_cons_zero, List.getD_cons_succ, List.length_cons, List.length_nil,
    List.getD_nil]
  rw [orShift4 _ _ _ _ (Nat.mod_lt _ (by norm_num)) (Nat.mod_lt _ (by norm_num))
    (by norm_num)]
  simp only [Nat.shiftRight_eq_div_pow, List.take, List.cons.injEq, and_true]
  refine ⟨?_, ?_⟩ <;> apply Fin.ext <;> simp only [Fin.ofNat, Fin.val_mk] <;> omega

theorem quantumBytes_two (a : Byte) :
    quantumBytes [(a.val * 65536) / 262144 % 64, (a.val * 65536) / 4096 % 64] = [a] := by
  have ha := a.isLt
  unfold quantumBytes
  simp only [List.getD_cons_zero, List.getD_cons_succ, List.length_cons, List.length_nil,
    List.getD_nil]
  rw [orShift4 _ _ _ _ (Nat.mod_lt _ (by norm_num)) (by norm_num) (by norm_num)]
  simp only [Nat.shiftRight_eq_div_pow, List.take, List.cons.injEq, and_true]
  apply Fin.ext
  simp only [Fin.ofNat, Fin.val_mk]
  omega

/-- The decoder undoes the encoder. -/
theorem DecodeString_EncodeToString (l : List Byte) :
    DecodeString (EncodeToString l) = some l := by
  unfold DecodeString
  induction l using EncodeToString.induct with
  | case1 a b c rest ih =>
    rw [EncodeToString]
    simp only [orShift3 a.val b.val c.val b.isLt c.isLt, and_63, Nat.shiftRight_eq_div_pow]
    rw [decodeLoop_cons_enc _ (Nat.mod_lt _ (by norm_num)),
      if_neg (by simp), decodeLoop_cons_enc _ (Nat.mod_lt _ (by norm_num)),
      if_neg (by simp), decodeLoop_cons_enc _ (Nat.mod_lt _ (by norm_num)),
      if_neg (by simp), decodeLoop_cons_enc _ (Nat.mod_lt _ (by norm_num)),
      if_pos (by simp), ih]
    simp only [List.nil_append, List.cons_append, Option.map_some']
    have := quantumBytes_four a b c
    simp only [Nat.reducePow] at this ⊢
    rw [this]
    rfl
  | case2 a b =>
    rw [EncodeToString]
    have h0 : a.val <<< 16 ||| b.val <<< 8 = a.val * 65536 + b.val * 256 := by
      have := orShift3 a.val b.val 0 b.isLt (by norm_num)
      simpa using this
    simp only [h0, and_63, Nat.shiftRight_eq_div_pow]
    rw [decodeLoop_cons_enc _ (Nat.mod_lt _ (by norm_num)),
      if_neg (by simp), decodeLoop_cons_enc _ (Nat.mod_lt _ (by norm_num)),
      if_neg (by simp), decodeLoop_cons_enc _ (Nat.mod_lt _ (by norm_num)),
      if_neg (by simp), decodeLoop]
    simp only [List.nil_append, List.cons_append, List.length_cons, List.length_nil]
    have := quantumBytes_three a b
    simp only [Nat.reducePow] at this ⊢
    rw [this]
    rfl
  | case3 a =>
    rw [EncodeToString]
    simp only [Nat.shiftLeft_eq, and_63, Nat.shiftRight_eq_div_pow]
    rw [decodeLoop_cons_enc _ (Nat.mod_lt _ (by norm_num)),
      if_neg (by simp), decodeLoop_cons_enc _ (Nat.mod_lt _ (by norm_num)),
      if_neg (by simp), decodeLoop]
    simp only [List.nil_append, List.cons_append, List.length_cons, List.length_nil]
    have := quantumBytes_two a
    simp only [Nat.reducePow] at this ⊢
    rw [this]
    rfl
  | case4 => rfl

theorem EncodeToString_eq_nil {l : List Byte} : EncodeToString l = [] ↔ l = [] := by
  constructor
  · intro h
    match l with
    | [] => rfl
    | [_] => simp [EncodeToString] at h
    | [_, _] => simp [EncodeToString] at h
    | _ :: _ :: _ :: _ => simp [EncodeToString] at h
  · rintro rfl
    rfl

end base64

/-! ## Lemmas: the signature check -/

namespace strconv

theorem ParseInt_nil : ParseInt [] = .error .ErrSyntax := rfl

theorem signedOfUint_isInt64 {neg : Bool} {un : Nat} {t : Int}
    (h : signedOfUint neg un = .ok t) : IsInt64 t := by
  unfold signedOfUint at h
  split at h
  · cases h
  · split at h
    · cases h
    · cases h
      split <;> exact wrapInt64_isInt64 _

/-- A parsed timestamp is an `int64`. -/
theorem ParseInt_isInt64 {s : List Byte} {t : Int} (h : ParseInt s = .ok t) : IsInt64 t := by
  unfold ParseInt at h
  split at h
  · cases h
  · unfold parseSigned at h
    split at h
    · cases h
    · exact signedOfUint_isInt64 h
    · exact signedOfUint_isInt64 h

end strconv

namespace headers

theorem ComputeAuthSignature_ne_nil (pr : Primitives) (secret tsStr claimsB64 : List Byte) :
    ComputeAuthSignature pr secret tsStr claimsB64 ≠ [] := by
  unfold ComputeAuthSignature
  intro h
  have hlen := pr.hmacSHA256_length secret (tsStr ++ ascii "." ++ claimsB64)
  rw [base64.EncodeToString_eq_nil.mp h] at hlen
  simp at hlen

/-- The four checks of `VerifyAuthSignature`, once the timestamp has been
parsed, with `skew` standing for `int64(maxSkew.Seconds())`. -/
theorem VerifyAuthSignature_parsed (pr : Primitives) (now : Int)
    (secret tsStr claimsB64 sig : List Byte) (maxSkew t : Int)
    (hparse : strconv.ParseInt tsStr = .ok t) :
    VerifyAuthSignature pr now secret tsStr claimsB64 sig maxSkew =
      if claimsB64 = [] ∨ sig = [] then some .missingHeaders
      else if t > wrapInt64 (now + time.truncToInt64 (time.Seconds maxSkew)) ∨
          t < wrapInt64 (now - time.truncToInt64 (time.Seconds maxSkew)) then
        some .tsOutOfRange
      else if sig = ComputeAuthSignature pr secret tsStr claimsB64 then none
      else some .invalidSig := by
  have hts : tsStr ≠ [] := by
    rintro rfl
    rw [strconv.ParseInt_nil] at hparse
    cases hparse
  unfold VerifyAuthSignature
  simp only [hts, false_or, hparse]
  split
  · rfl
  · split
    · rfl
    · simp only [ComputeAuthSignature]
      by_cases hsig : sig = base64.EncodeToString
          (pr.hmacSHA256 secret (tsStr ++ ascii "." ++ claimsB64))
      · rw [if_pos hsig, if_neg]
        simp only [Bool.not_eq_true', Bool.not_eq_false, Bool.not_eq_eq_eq_not, Bool.not_true,
          Bool.not_eq_false']
        rw [hmac.Equal_iff]
        exact hsig.symm
      · rw [if_neg hsig, if_pos]
        rw [Bool.not_eq_true', ← Bool.not_eq_true, hmac.Equal_iff]
        exact fun h => hsig h.symm

end headers

namespace headers

/-- Inside the window a signature computed for the same inputs is accepted. -/
theorem VerifyAuthSignature_inWindow (pr : Primitives) (now w t : Int)
    (secret tsStr claimsB64 : List Byte)
    (hclaims : claimsB64 ≠ [])
    (hparse : strconv.ParseInt tsStr = .ok t)
    (hdur : IsInt64 (w * 1000000000))
    (hlo : IsInt64 (now - w)) (hhi : IsInt64 (now + w))
    (hwin : now - w ≤ t ∧ t ≤ now + w) :
    VerifyAuthSignature pr now secret tsStr claimsB64
      (ComputeAuthSignature pr secret tsStr claimsB64) (w * 1000000000) = none := by
  rw [VerifyAuthSignature_parsed pr now secret tsStr claimsB64 _ _ t hparse,
    time.skew_wholeSeconds w hdur, wrapInt64_of_isInt64 hlo, wrapInt64_of_isInt64 hhi]
  rw [if_neg (by simp [hclaims, ComputeAuthSignature_ne_nil]), if_neg (by omega), if_pos rfl]

end headers

/-! ## Claims on `VerifyAuthSignature` -/

namespace headers

/-- C1, counterexample: with the secret "k1", the timestamp "1000", a window
of 300 s and the clock at 1000 the timestamp parses and lies in the window,
yet for the empty claims text the signature computed for the same inputs is
rejected with the missing-headers error. -/
theorem roundtrip_fails_on_empty_claims :
    strconv.ParseInt (ascii "1000") = .ok 1000 ∧
    ((1000 : Int) - 300 ≤ 1000 ∧ (1000 : Int) ≤ 1000 + 300) ∧
    ∀ pr : Primitives,
      VerifyAuthSignature pr 1000 (ascii "k1") (ascii "1000") []
        (ComputeAuthSignature pr (ascii "k1") (ascii "1000") []) (300 * 1000000000) =
        some .missingHeaders := by
  refine ⟨by rfl, by decide, ?_⟩
  intro pr
  simp [VerifyAuthSignature]

/-- C1, as amended: for every secret, every timestamp text that parses to
`t`, every non-empty claims text, every clock value `now` and window of `w`
whole seconds with `now - w ≤ t ≤ now + w`, where `now - w` and `now + w`
are `int64` values, `VerifyAuthSignature` accepts the signature that
`ComputeAuthSignature` computes for the same secret, timestamp and claims. -/
theorem verify_computed_signature (pr : Primitives) (now w t : Int)
    (secret tsStr claimsB64 : List Byte)
    (hclaims : claimsB64 ≠ [])
    (hparse : strconv.ParseInt tsStr = .ok t)
    (hdur : IsInt64 (w * 1000000000))
    (hlo : IsInt64 (now - w)) (hhi : IsInt64 (now + w))
    (hwin : now - w ≤ t ∧ t ≤ now + w) :
    VerifyAuthSignature pr now secret tsStr claimsB64
      (ComputeAuthSignature pr secret tsStr claimsB64) (w * 1000000000) = none :=
  VerifyAuthSignature_inWindow pr now w t secret tsStr claimsB64 hclaims hparse hdur hlo hhi hwin

/-- C1, witness: the scenario of the specification, secret "k1", timestamp
"1000", claims "eyJ1IjoxfQ", window 300 s, clock at 1000. -/
theorem verify_computed_signature_witness :
    VerifyAuthSignature Primitives.sample 1000 (ascii "k1") (ascii "1000") (ascii "eyJ1IjoxfQ")
      (ComputeAuthSignature Primitives.sample (ascii "k1") (ascii "1000") (ascii "eyJ1IjoxfQ"))
      (300 * 1000000000) = none :=
  verify_computed_signature Primitives.sample 1000 300 1000 (ascii "k1") (ascii "1000")
    (ascii "eyJ1IjoxfQ") (by decide) (by rfl) (by decide) (by decide) (by decide) (by decide)

end headers

namespace headers

/-- C2: for every clock value `now`, every window of `w ≥ 0` whole seconds,
every secret and non-empty claims text, a request signed with
`ComputeAuthSignature` fails with the out-of-range error when its timestamp
is `now - w - 1` or `now + w + 1` (and whenever it lies outside
`[now - w, now + w]`), and succeeds when its timestamp is `now - w` or
`now + w`, the other end of the window being an `int64`. -/
theorem window_boundaries_inclusive (pr : Primitives) (now w : Int)
    (secret claimsB64 : List Byte)
    (hclaims : claimsB64 ≠ []) (hnow : IsInt64 now) (hw : 0 ≤ w)
    (hdur : IsInt64 (w * 1000000000)) :
    (∀ tsStr, strconv.ParseInt tsStr = .ok (now - w - 1) →
      VerifyAuthSignature pr now secret tsStr claimsB64
        (ComputeAuthSignature pr secret tsStr claimsB64) (w * 1000000000) =
        some .tsOutOfRange) ∧
    (∀ tsStr, strconv.ParseInt tsStr = .ok (now + w + 1) →
      VerifyAuthSignature pr now secret tsStr claimsB64
        (ComputeAuthSignature pr secret tsStr claimsB64) (w * 1000000000) =
        some .tsOutOfRange) ∧
    (∀ tsStr, strconv.ParseInt tsStr = .ok (now - w) → IsInt64 (now + w) →
      VerifyAuthSignature pr now secret tsStr claimsB64
        (ComputeAuthSignature pr secret tsStr claimsB64) (w * 1000000000) = none) ∧
    (∀ tsStr, strconv.ParseInt tsStr = .ok (now + w) → IsInt64 (now - w) →
      VerifyAuthSignature pr now secret tsStr claimsB64
        (ComputeAuthSignature pr secret tsStr claimsB64) (w * 1000000000) = none) ∧
    (∀ tsStr t, strconv.ParseInt tsStr = .ok t → t < now - w ∨ now + w < t →
      VerifyAuthSignature pr now secret tsStr claimsB64
        (ComputeAuthSignature pr secret tsStr claimsB64) (w * 1000000000) =
        some .tsOutOfRange) := by
  have hout : ∀ tsStr t, strconv.ParseInt tsStr = .ok t → t < now - w ∨ now + w < t →
      VerifyAuthSignature pr now secret tsStr claimsB64
        (ComputeAuthSignature pr secret tsStr claimsB64) (w * 1000000000) =
        some .tsOutOfRange := by
    intro tsStr t hparse hcases
    have ht := strconv.ParseInt_isInt64 hparse
    rw [VerifyAuthSignature_parsed pr now secret tsStr claimsB64 _ _ t hparse,
      time.skew_wholeSeconds w hdur,
      if_neg (by simp [hclaims, ComputeAuthSignature_ne_nil]), if_pos]
    unfold IsInt64 at ht hnow
    rcases hcases with h | h
    · right
      rw [wrapInt64_of_isInt64 (by unfold IsInt64; omega)]
      exact h
    · left
      rw [wrapInt64_of_isInt64 (by unfold IsInt64; omega)]
      exact h
  have hin : ∀ tsStr t, strconv.ParseInt tsStr = .ok t → now - w ≤ t ∧ t ≤ now + w →
      IsInt64 (now - w) → IsInt64 (now + w) →
      VerifyAuthSignature pr now secret tsStr claimsB64
        (ComputeAuthSignature pr secret tsStr claimsB64) (w * 1000000000) = none :=
    fun tsStr t hparse hwin hlo hhi =>
      VerifyAuthSignature_inWindow pr now w t secret tsStr claimsB64 hclaims hparse hdur hlo hhi
        hwin
  refine ⟨?_, ?_, ?_, ?_, hout⟩
  · intro tsStr hparse
    exact hout tsStr _ hparse (Or.inl (by omega))
  · intro tsStr hparse
    exact hout tsStr _ hparse (Or.inr (by omega))
  · intro tsStr hparse hhi
    exact hin tsStr _ hparse ⟨le_refl _, by omega⟩ (strconv.ParseInt_isInt64 hparse) hhi
  · intro tsStr hparse hlo
    exact hin tsStr _ hparse ⟨by omega, le_refl _⟩ hlo (strconv.ParseInt_isInt64 hparse)

/-- C2, witness: with the clock at 2000 and a window of 300 s the
timestamps "1699" and "2301" are out of range, "1700" and "2300" are
accepted, and the timestamp "1000" of the specification's scenario is out
of range. -/
theorem window_boundaries_inclusive_witness :
    (∀ tsStr ∈ [ascii "1699", ascii "2301", ascii "1000"],
      VerifyAuthSignature Primitives.sample 2000 (ascii "k1") tsStr (ascii "eyJ1IjoxfQ")
        (ComputeAuthSignature Primitives.sample (ascii "k1") tsStr (ascii "eyJ1IjoxfQ"))
        (300 * 1000000000) = some .tsOutOfRange) ∧
    (∀ tsStr ∈ [ascii "1700", ascii "2300"],
      VerifyAuthSignature Primitives.sample 2000 (ascii "k1") tsStr (ascii "eyJ1IjoxfQ")
        (ComputeAuthSignature Primitives.sample (ascii "k1") tsStr (ascii "eyJ1IjoxfQ"))
        (300 * 1000000000) = none) := by
  have h := window_boundaries_inclusive Primitives.sample 2000 300 (ascii "k1")
    (ascii "eyJ1IjoxfQ") (by decide) (by decide) (by decide) (by decide)
  constructor
  · intro tsStr hmem
    simp only [List.mem_cons, List.mem_singleton, List.not_mem_nil, or_false] at hmem
    rcases hmem with rfl | rfl | rfl
    · exact h.1 _ (by rfl)
    · exact h.2.1 _ (by rfl)
    · exact h.2.2.2.2 _ 1000 (by rfl) (Or.inl (by decide))
  · intro tsStr hmem
    simp only [List.mem_cons, List.mem_singleton, List.not_mem_nil, or_false] at hmem
    rcases hmem with rfl | rfl
    · exact h.2.2.1 _ (by rfl) (by decide)
    · exact h.2.2.2.1 _ (by rfl) (by decide)

/-- C3: `VerifyAuthSignature` returns the missing-headers error exactly
when the timestamp text, the claims text or the signature text is empty,
for every secret, window, clock value and every content of the other texts. -/
theorem missing_headers_iff (pr : Primitives) (now : Int)
    (secret tsStr claimsB64 sig : List Byte) (maxSkew : Int) :
    VerifyAuthSignature pr now secret tsStr claimsB64 sig maxSkew = some .missingHeaders ↔
      (tsStr = [] ∨ claimsB64 = [] ∨ sig = []) := by
  unfold VerifyAuthSignature
  constructor
  · intro h
    by_contra hne
    rw [if_neg hne] at h
    split at h
    · cases h
    · split at h
      · cases h
      · simp only [] at h
        split at h <;> cases h
  · intro h
    rw [if_pos h]

/-- C5: when the three texts are non-empty, the timestamp parses and lies
in the window that the code computes, every signature text different from
`ComputeAuthSignature secret tsStr claimsB64` is rejected with the
signature-mismatch error. -/
theorem tampered_signature_rejected (pr : Primitives) (now : Int)
    (secret tsStr claimsB64 sig : List Byte) (maxSkew t : Int)
    (hclaims : claimsB64 ≠ []) (hsig : sig ≠ [])
    (hparse : strconv.ParseInt tsStr = .ok t)
    (hwin : wrapInt64 (now - time.truncToInt64 (time.Seconds maxSkew)) ≤ t ∧
      t ≤ wrapInt64 (now + time.truncToInt64 (time.Seconds maxSkew)))
    (hne : sig ≠ ComputeAuthSignature pr secret tsStr claimsB64) :
    VerifyAuthSignature pr now secret tsStr claimsB64 sig maxSkew = some .invalidSig := by
  rw [VerifyAuthSignature_parsed pr now secret tsStr claimsB64 sig maxSkew t hparse,
    if_neg (by simp [hclaims, hsig]), if_neg (by omega), if_neg hne]

/-- C5, witness: the computed signature with a padding character "="
appended is rejected with the signature-mismatch error. -/
theorem tampered_signature_rejected_witness :
    VerifyAuthSignature Primitives.sample 1000 (ascii "k1") (ascii "1000") (ascii "eyJ1IjoxfQ")
      (ComputeAuthSignature Primitives.sample (ascii "k1") (ascii "1000") (ascii "eyJ1IjoxfQ") ++
        ascii "=")
      (300 * 1000000000) = some .invalidSig :=
  tampered_signature_rejected Primitives.sample 1000 (ascii "k1") (ascii "1000")
    (ascii "eyJ1IjoxfQ") _ (300 * 1000000000) 1000 (by decide) (by decide) (by rfl)
    (by rw [time.skew_wholeSeconds 300 (by decide)]; decide) (by decide)

end headers

/-! ## Lemmas: `ParseInt` against the decimal notation -/

namespace strconv

theorem le_foldl_digits (cs : List Byte) (n : Nat) :
    n ≤ cs.foldl (fun n c => n * 10 + (c.val - 48)) n := by
  induction cs generalizing n with
  | nil => exact le_refl _
  | cons c cs ih =>
    rw [List.foldl_cons]
    exact le_trans (by omega) (ih _)

/-- The digit loop returns a number exactly on a string of decimal digits
whose value, continued from `n`, fits 64 bits. -/
theorem parseUintLoop_eq_ok (cs : List Byte) (n m : Nat) (hn : n ≤ maxUint64) :
    parseUintLoop cs n = .ok m ↔
      (∀ c ∈ cs, Spec.IsDigit c) ∧ m = cs.foldl (fun n c => n * 10 + (c.val - 48)) n ∧
        m ≤ maxUint64 := by
  induction cs generalizing n with
  | nil =>
    simp only [parseUintLoop, Except.ok.injEq, List.not_mem_nil, false_implies, implies_true,
      List.foldl_nil, true_and]
    constructor
    · rintro rfl
      exact ⟨rfl, hn⟩
    · rintro ⟨rfl, _⟩
      rfl
  | cons c cs ih =>
    unfold maxUint64 at hn
    rw [parseUintLoop, List.foldl_cons]
    simp only [List.mem_cons, forall_eq_or_imp]
    by_cases hd : 48 ≤ c.val ∧ c.val ≤ 57
    · rw [if_pos hd, if_neg (by omega)]
      have hge := le_foldl_digits cs (n * 10 + (c.val - 48))
      by_cases hcut : n ≥ maxUint64 / 10 + 1
      · rw [if_pos hcut]
        unfold maxUint64 at hcut ⊢
        constructor
        · intro h; cases h
        · rintro ⟨_, rfl, hm⟩
          omega
      · rw [if_neg hcut]
        unfold maxUint64 at hcut
        by_cases hov : n * 10 + (c.val - 48) < 18446744073709551616
        · rw [Nat.mod_eq_of_lt hov, if_neg (by unfold maxUint64; omega),
            ih _ (by unfold maxUint64; omega)]
          simp only [Spec.IsDigit, hd, and_self, true_and]
        · rw [if_pos (by left; omega)]
          constructor
          · intro h; cases h
          · rintro ⟨_, rfl, hm⟩
            unfold maxUint64 at hm
            omega
    · rw [if_neg hd]
      have : ¬ Spec.IsDigit c := hd
      simp only [this, false_and, iff_false]
      split <;> [split; skip] <;> intro h <;> cases h

theorem signedOfUint_maxUint64 (neg : Bool) :
    signedOfUint neg maxUint64 = .error .ErrRange := by
  cases neg <;> rfl

theorem signedOfUint_eq_ok (neg : Bool) (un : Nat) (t : Int) (hun : un ≤ maxUint64) :
    signedOfUint neg un = .ok t ↔
      t = (if neg then -(un : Int) else (un : Int)) ∧ IsInt64 t := by
  unfold maxUint64 at hun
  unfold signedOfUint IsInt64
  cases neg
  · simp only [Bool.not_false, Bool.true_and, decide_eq_true_eq, Bool.false_and,
      Bool.false_eq_true, if_false]
    by_cases h : un ≥ 9223372036854775808
    · rw [if_pos h]
      constructor
      · intro h'; cases h'
      · rintro ⟨rfl, h1, h2⟩
        omega
    · rw [if_neg h]
      have hw : wrapInt64 (un : Int) = un := wrapInt64_of_isInt64 (by unfold IsInt64; omega)
      simp only [hw, Except.ok.injEq]
      constructor
      · rintro rfl
        omega
      · rintro ⟨rfl, _⟩
        rfl
  · simp only [Bool.not_true, Bool.false_and, Bool.false_eq_true, if_false, Bool.true_and,
      decide_eq_true_eq, if_true]
    by_cases h : un > 9223372036854775808
    · rw [if_pos h]
      constructor
      · intro h'; cases h'
      · rintro ⟨rfl, h1, h2⟩
        omega
    · rw [if_neg h]
      have hw : wrapInt64 (-wrapInt64 (un : Int)) = -(un : Int) := by
        unfold wrapInt64
        omega
      simp only [hw, Except.ok.injEq]
      constructor
      · rintro rfl
        omega
      · rintro ⟨rfl, _⟩
        rfl

end strconv

namespace strconv

theorem ParseUint_eq_ok (body : List Byte) (un : Nat) :
    ParseUint body = .ok un ↔
      body ≠ [] ∧ (∀ d ∈ body, Spec.IsDigit d) ∧ un = Spec.decimalValue body ∧
        un ≤ maxUint64 := by
  unfold ParseUint Spec.decimalValue
  cases body with
  | nil => simp
  | cons c cs =>
    simp only [ne_eq, reduceCtorEq, not_false_eq_true, true_and]
    exact parseUintLoop_eq_ok (c :: cs) 0 un (by unfold maxUint64; omega)

theorem parseSigned_eq_ok (neg : Bool) (body : List Byte) (t : Int) :
    parseSigned neg body = .ok t ↔
      body ≠ [] ∧ (∀ d ∈ body, Spec.IsDigit d) ∧
        t = (if neg then -(Spec.decimalValue body : Int) else (Spec.decimalValue body : Int)) ∧
        IsInt64 t := by
  unfold parseSigned
  cases h : ParseUint body with
  | error e =>
    have hno : ¬ (body ≠ [] ∧ (∀ d ∈ body, Spec.IsDigit d) ∧
        t = (if neg then -(Spec.decimalValue body : Int) else (Spec.decimalValue body : Int)) ∧
        IsInt64 t) := by
      rintro ⟨h1, h2, h3, h4⟩
      have hle : Spec.decimalValue body ≤ maxUint64 := by
        unfold IsInt64 at h4
        unfold maxUint64
        cases neg <;> simp at h3 <;> omega
      have := (ParseUint_eq_ok body _).mpr ⟨h1, h2, rfl, hle⟩
      rw [h] at this
      cases this
    cases e with
    | ErrSyntax =>
      simp only [hno, iff_false]
      intro h'; cases h'
    | ErrRange =>
      simp only [hno, iff_false, signedOfUint_maxUint64]
      intro h'; cases h'
  | ok un =>
    obtain ⟨h1, h2, h3, h4⟩ := (ParseUint_eq_ok body un).mp h
    subst h3
    rw [signedOfUint_eq_ok neg _ t h4]
    exact ⟨fun hh => ⟨h1, h2, hh⟩, fun hh => hh.2.2⟩

theorem ParseInt_eq_parseSigned (c : Byte) (rest : List Byte) :
    ParseInt (c :: rest) =
      parseSigned (decide (c.val = 45))
        (if c.val = 43 then rest else if c.val = 45 then rest else c :: rest) := rfl

/-- `ParseInt` returns `t` exactly when the text is a base-10 signed integer
that denotes `t` and `t` is an `int64`. -/
theorem ParseInt_eq_ok (s : List Byte) (t : Int) :
    ParseInt s = .ok t ↔ Spec.signedDecimal s = some t ∧ IsInt64 t := by
  cases s with
  | nil =>
    rw [ParseInt_nil]
    simp [Spec.signedDecimal]
  | cons c rest =>
    rw [ParseInt_eq_parseSigned, parseSigned_eq_ok]
    unfold Spec.signedDecimal
    simp only []
    by_cases h43 : c.val = 43
    · have h45 : ¬ c.val = 45 := by omega
      simp only [if_pos h43, decide_eq_false h45, Bool.false_eq_true, if_false]
      by_cases hd : rest ≠ [] ∧ ∀ d ∈ rest, Spec.IsDigit d
      · rw [if_pos hd]
        constructor
        · rintro ⟨_, _, h3, h4⟩
          exact ⟨by rw [h3], h4⟩
        · rintro ⟨h3, h4⟩
          exact ⟨hd.1, hd.2, (Option.some.inj h3).symm, h4⟩
      · rw [if_neg hd]
        constructor
        · rintro ⟨h1, h2, _⟩
          exact absurd ⟨h1, h2⟩ hd
        · rintro ⟨h3, _⟩
          cases h3
    · by_cases h45 : c.val = 45
      · simp only [if_neg h43, if_pos h45, decide_eq_true h45, if_true]
        by_cases hd : rest ≠ [] ∧ ∀ d ∈ rest, Spec.IsDigit d
        · rw [if_pos hd]
          constructor
          · rintro ⟨_, _, h3, h4⟩
            exact ⟨by rw [h3], h4⟩
          · rintro ⟨h3, h4⟩
            exact ⟨hd.1, hd.2, (Option.some.inj h3).symm, h4⟩
        · rw [if_neg hd]
          constructor
          · rintro ⟨h1, h2, _⟩
            exact absurd ⟨h1, h2⟩ hd
          · rintro ⟨h3, _⟩
            cases h3
      · simp only [if_neg h43, if_neg h45, decide_eq_false h45, Bool.false_eq_true, if_false]
        by_cases hd : ∀ d ∈ c :: rest, Spec.IsDigit d
        · rw [if_pos hd]
          constructor
          · rintro ⟨_, _, h3, h4⟩
            exact ⟨by rw [h3], h4⟩
          · rintro ⟨h3, h4⟩
            exact ⟨List.cons_ne_nil _ _, hd, (Option.some.inj h3).symm, h4⟩
        · rw [if_neg hd]
          constructor
          · rintro ⟨_, h2, _⟩
            exact absurd h2 hd
          · rintro ⟨h3, _⟩
            cases h3

theorem ParseInt_isOk_iff (s : List Byte) :
    (∃ t, ParseInt s = .ok t) ↔ Spec.ParsesAsInt64 s := by
  unfold Spec.ParsesAsInt64
  constructor
  · rintro ⟨t, h⟩
    exact ⟨t, (ParseInt_eq_ok s t).mp h⟩
  · rintro ⟨t, h⟩
    exact ⟨t, (ParseInt_eq_ok s t).mpr h⟩

end strconv

namespace headers

/-- C9: when the three texts are non-empty, `VerifyAuthSignature` returns
the bad-timestamp error exactly when the timestamp text is not a base-10
signed integer of 64 bits (an optional "+" or "-", then decimal digits),
whatever the clock, the window and the signature are. -/
theorem bad_timestamp_iff (pr : Primitives) (now : Int)
    (secret tsStr claimsB64 sig : List Byte) (maxSkew : Int)
    (hts : tsStr ≠ []) (hclaims : claimsB64 ≠ []) (hsig : sig ≠ []) :
    (∃ e, VerifyAuthSignature pr now secret tsStr claimsB64 sig maxSkew = some (.invalidTs e)) ↔
      ¬ Spec.ParsesAsInt64 tsStr := by
  rw [← strconv.ParseInt_isOk_iff]
  cases hp : strconv.ParseInt tsStr with
  | error e =>
    have hv : VerifyAuthSignature pr now secret tsStr claimsB64 sig maxSkew =
        some (.invalidTs e) := by
      unfold VerifyAuthSignature
      rw [if_neg (by simp [hts, hclaims, hsig]), hp]
    constructor
    · rintro _ ⟨t, ht⟩
      cases ht
    · intro _
      exact ⟨e, hv⟩
  | ok t =>
    constructor
    · rintro ⟨e, he⟩
      rw [VerifyAuthSignature_parsed pr now secret tsStr claimsB64 sig maxSkew t hp] at he
      split at he
      · cases he
      · split at he
        · cases he
        · split at he <;> cases he
    · intro h
      exact absurd ⟨t, rfl⟩ h

set_option maxRecDepth 100000 in
/-- C9, witness: the texts "1000.5", " 1000", "1e3", "0x10", "1_000" and
"9223372036854775808" are bad timestamps, although the clock is far away
and the signature is wrong; the texts "+1000" and "-1000" are not. -/
theorem bad_timestamp_iff_witness :
    (∀ tsStr ∈ [ascii "1000.5", ascii " 1000", ascii "1e3", ascii "0x10", ascii "1_000",
        ascii "9223372036854775808"],
      ∃ e, VerifyAuthSignature Primitives.sample 5000 (ascii "k1") tsStr (ascii "eyJ1IjoxfQ")
        (ascii "AAAA") (300 * 1000000000) = some (.invalidTs e)) ∧
    (∀ tsStr ∈ [ascii "+1000", ascii "-1000"],
      ¬ ∃ e, VerifyAuthSignature Primitives.sample 5000 (ascii "k1") tsStr (ascii "eyJ1IjoxfQ")
        (ascii "AAAA") (300 * 1000000000) = some (.invalidTs e)) := by
  constructor
  · intro tsStr hmem
    have hne : tsStr ≠ [] ∧ ¬ Spec.ParsesAsInt64 tsStr := by
      revert tsStr
      decide
    exact (bad_timestamp_iff Primitives.sample 5000 (ascii "k1") tsStr (ascii "eyJ1IjoxfQ")
      (ascii "AAAA") (300 * 1000000000) hne.1 (by decide) (by decide)).mpr hne.2
  · intro tsStr hmem
    have hne : tsStr ≠ [] ∧ Spec.ParsesAsInt64 tsStr := by
      revert tsStr
      decide
    exact fun h => (bad_timestamp_iff Primitives.sample 5000 (ascii "k1") tsStr
      (ascii "eyJ1IjoxfQ") (ascii "AAAA") (300 * 1000000000) hne.1 (by decide)
      (by decide)).mp h hne.2

end headers

/-! ## Lemmas: which texts the decoder accepts -/

namespace base64

set_option maxRecDepth 100000 in
theorem not_newline_of_mem : ∀ c ∈ encodeStd, ¬ (c.val = 10 ∨ c.val = 13) := by
  decide

theorem dropNewlines_cons_of_mem {c : Byte} (cs : List Byte) (h : c ∈ encodeStd) :
    Spec.dropNewlines (c :: cs) = c :: Spec.dropNewlines cs := by
  have hn := not_newline_of_mem c h
  unfold Spec.dropNewlines
  rw [List.filter_cons_of_pos]
  simpa using hn

theorem dropNewlines_cons_of_newline {c : Byte} (cs : List Byte) (h : c.val = 10 ∨ c.val = 13) :
    Spec.dropNewlines (c :: cs) = Spec.dropNewlines cs := by
  unfold Spec.dropNewlines
  rw [List.filter_cons_of_neg]
  rcases h with h | h <;> simp [h]

theorem dropNewlines_cons_of_other {c : Byte} (cs : List Byte)
    (h : ¬ (c.val = 10 ∨ c.val = 13)) :
    Spec.dropNewlines (c :: cs) = c :: Spec.dropNewlines cs := by
  unfold Spec.dropNewlines
  rw [List.filter_cons_of_pos]
  simpa using h

/-- The decoding loop fails exactly when, CR and LF apart, a byte is outside
the alphabet or the last quantum holds a single character. -/
theorem decodeLoop_eq_none_iff (cs : List Byte) (dbuf : List Nat) (hbuf : dbuf.length < 4) :
    decodeLoop cs dbuf = none ↔
      ¬ ((∀ c ∈ Spec.dropNewlines cs, c ∈ encodeStd) ∧
        (dbuf.length + (Spec.dropNewlines cs).length) % 4 ≠ 1) := by
  induction cs generalizing dbuf with
  | nil =>
    rw [decodeLoop]
    simp only [Spec.dropNewlines, List.filter_nil, List.not_mem_nil, false_implies, implies_true,
      List.length_nil, Nat.add_zero, true_and, Decidable.not_not]
    by_cases h0 : dbuf.length = 0
    · rw [if_pos h0]
      simp [h0]
    · rw [if_neg h0]
      by_cases h1 : dbuf.length = 1
      · rw [if_pos h1]
        simp [h1]
      · rw [if_neg h1]
        simp only [reduceCtorEq, false_iff]
        omega
  | cons c cs ih =>
    rw [decodeLoop]
    by_cases hc : c ∈ encodeStd
    · rw [if_pos ((decodeMap_ne_255_iff c).mpr hc), dropNewlines_cons_of_mem cs hc]
      simp only [List.mem_cons, forall_eq_or_imp, hc, true_and, List.length_cons]
      by_cases h4 : dbuf.length + 1 = 4
      · rw [if_pos h4, Option.map_eq_none', ih [] (by simp)]
        simp only [List.length_nil, Nat.zero_add]
        have : (dbuf.length + ((Spec.dropNewlines cs).length + 1)) % 4 =
            (Spec.dropNewlines cs).length % 4 := by omega
        rw [this]
      · rw [if_neg h4, ih (dbuf ++ [decodeMap c]) (by simp; omega)]
        simp only [List.length_append, List.length_singleton]
        have : dbuf.length + 1 + (Spec.dropNewlines cs).length =
            dbuf.length + ((Spec.dropNewlines cs).length + 1) := by omega
        rw [this]
    · rw [if_neg (by rw [decodeMap_ne_255_iff]; exact hc)]
      by_cases hnl : c.val = 10 ∨ c.val = 13
      · rw [if_pos hnl, dropNewlines_cons_of_newline cs hnl]
        exact ih dbuf hbuf
      · rw [if_neg hnl, dropNewlines_cons_of_other cs hnl]
        simp only [List.mem_cons, forall_eq_or_imp, hc, false_and, not_false_eq_true]

/-- The decoder accepts a text exactly when the text without its CR and LF
bytes is unpadded standard base64. -/
theorem DecodeString_isSome_iff (s : List Byte) :
    (∃ b, DecodeString s = some b) ↔ Spec.IsRawStdBase64 (Spec.dropNewlines s) := by
  have h := decodeLoop_eq_none_iff s [] (by simp)
  simp only [List.length_nil, Nat.zero_add] at h
  unfold Spec.IsRawStdBase64 DecodeString
  rw [← not_iff_not, ← h]
  cases decodeLoop s [] <;> simp

end base64

/-! ## Lemmas: `HashPassword` and `VerifyPassword` -/

namespace password

/-- A successful `HashPassword` has read `SaltLen` bytes and encoded them
and the key derived from them; no field of the parameters is zero. -/
theorem HashPassword_ok {pr : Primitives} {rnd : RandSource} {pw saltB64 hashB64 : List Byte}
    {p : Params} (h : HashPassword pr rnd pw p = .returned ⟨saltB64, hashB64, none⟩) :
    pw ≠ [] ∧ ¬ Spec.HasZeroField p ∧
      ∃ salt, rnd.Read p.SaltLen.val = some salt ∧
        saltB64 = base64.EncodeToString salt ∧
        hashB64 = base64.EncodeToString
          (pr.argon2id pw salt p.Time.val p.Memory.val p.Threads.val p.KeyLen.val) := by
  unfold HashPassword at h
  split at h
  · cases h
  · rename_i hpw
    split at h
    · cases h
    · rename_i hz
      refine ⟨hpw, hz, ?_⟩
      split at h
      · cases h
      · rename_i salt hread
        unfold argon2.IDKey at h
        rw [if_neg (by omega), if_neg (by omega), if_neg (by omega)] at h
        simp only [Outcome.returned.injEq, HashResult.mk.injEq, and_true] at h
        exact ⟨salt, hread, h.1.symm, h.2.symm⟩

/-- Behaviour of `VerifyPassword` on texts that decode. -/
theorem VerifyPassword_decoded (pr : Primitives) (pw saltB64 hashB64 salt wantHash : List Byte)
    (p : Params) (hs : base64.DecodeString saltB64 = some salt)
    (hh : base64.DecodeString hashB64 = some wantHash)
    (ht : 0 < p.Time.val) (hth : 0 < p.Threads.val) (hlen : wantHash.length % 4294967296 ≠ 0) :
    VerifyPassword pr pw saltB64 hashB64 p =
      .returned (decide (pr.argon2id pw salt p.Time.val p.Memory.val p.Threads.val
        (wantHash.length % 4294967296) = wantHash), none) := by
  unfold VerifyPassword argon2.IDKey
  rw [hs, hh]
  simp only []
  rw [if_neg (by omega), if_neg (by omega), if_neg (by omega)]
  simp only [subtle.ConstantTimeCompare_eq_one_iff]

end password

/-! ## Claims on `HashPassword` and `VerifyPassword` -/

namespace password

/-- C4: for every password, parameters and random source, if `HashPassword`
returns the credential `(saltB64, hashB64)` with a nil error, then
`VerifyPassword` on the same password, credential and parameters returns
`(true, nil)`. -/
theorem verify_hashed_password (pr : Primitives) (rnd : RandSource)
    (pw saltB64 hashB64 : List Byte) (p : Params)
    (h : HashPassword pr rnd pw p = .returned ⟨saltB64, hashB64, none⟩) :
    VerifyPassword pr pw saltB64 hashB64 p = .returned (true, none) := by
  obtain ⟨_, hz, salt, _, rfl, rfl⟩ := HashPassword_ok h
  unfold Spec.HasZeroField at hz
  have hk := pr.argon2id_length pw salt p.Time.val p.Memory.val p.Threads.val p.KeyLen.val
  have hlt := p.KeyLen.isLt
  have hmod : (pr.argon2id pw salt p.Time.val p.Memory.val p.Threads.val
      p.KeyLen.val).length % 4294967296 = p.KeyLen.val := by
    rw [hk]
    exact Nat.mod_eq_of_lt hlt
  rw [VerifyPassword_decoded pr pw _ _ salt _ p (base64.DecodeString_EncodeToString _)
    (base64.DecodeString_EncodeToString _) (by omega) (by omega) (by rw [hmod]; omega), hmod]
  simp

/-- C4, witness: the default parameters, the password "hunter2" and a random
source that delivers sixteen zero bytes. -/
theorem verify_hashed_password_witness :
    VerifyPassword Primitives.sample (ascii "hunter2")
      (base64.EncodeToString (List.replicate 16 0))
      (base64.EncodeToString (List.replicate 32 0)) DefaultParams = .returned (true, none) :=
  verify_hashed_password Primitives.sample RandSource.zeros (ascii "hunter2") _ _ DefaultParams
    (by rfl)

/-- C10: `HashPassword` on the empty password fails with the empty-password
error for every parameters; on a non-empty password it fails with the
invalid-params error exactly when a field of the parameters is zero; both
failures return empty salt and hash texts, whatever the random source is. -/
theorem HashPassword_validation (pr : Primitives) (rnd : RandSource) (p : Params) :
    HashPassword pr rnd [] p = .returned ⟨[], [], some .emptyPassword⟩ ∧
    ∀ pw : List Byte, pw ≠ [] →
      ((∃ saltB64 hashB64,
          HashPassword pr rnd pw p = .returned ⟨saltB64, hashB64, some .invalidParams⟩) ↔
        Spec.HasZeroField p) ∧
      (Spec.HasZeroField p → ∀ rnd2 : RandSource,
        HashPassword pr rnd2 pw p = .returned ⟨[], [], some .invalidParams⟩) := by
  refine ⟨by simp [HashPassword], ?_⟩
  intro pw hpw
  have hz : Spec.HasZeroField p → ∀ rnd2 : RandSource,
      HashPassword pr rnd2 pw p = .returned ⟨[], [], some .invalidParams⟩ := by
    intro hz rnd2
    unfold Spec.HasZeroField at hz
    unfold HashPassword
    rw [if_neg hpw, if_pos hz]
  refine ⟨⟨?_, fun h => ⟨[], [], hz h rnd⟩⟩, hz⟩
  rintro ⟨saltB64, hashB64, h⟩
  by_contra hnz
  unfold HashPassword at h
  unfold Spec.HasZeroField at hnz
  rw [if_neg hpw, if_neg hnz] at h
  split at h
  · cases h
  · split at h <;> cases h

end password

namespace password

set_option maxRecDepth 100000 in
/-- C7, counterexample: the stored hash "QUJD" followed by a line feed is not
unpadded standard base64 (the line feed is outside the alphabet), yet
`VerifyPassword` decodes it and returns a nil error. -/
theorem newline_in_stored_hash_is_no_error :
    ¬ Spec.IsRawStdBase64 (ascii "QUJD\n") ∧
    ∀ pr : Primitives, ∃ ok : Bool,
      VerifyPassword pr (ascii "hunter2") (ascii "AAAAAAAAAAAAAAAAAAAAAA") (ascii "QUJD\n")
        DefaultParams = .returned (ok, none) := by
  refine ⟨by decide, ?_⟩
  intro pr
  have hs : base64.DecodeString (ascii "AAAAAAAAAAAAAAAAAAAAAA") =
      some (List.replicate 16 0) := by rfl
  have hh : base64.DecodeString (ascii "QUJD\n") = some [65, 66, 67] := by rfl
  exact ⟨_, VerifyPassword_decoded pr _ _ _ _ _ DefaultParams hs hh (by decide) (by decide)
    (by decide)⟩

/-- C7, as amended: `VerifyPassword` returns a decode error, with
`ok = false`, exactly when the stored salt text or the stored hash text,
without its CR and LF bytes, is not unpadded standard base64 (the salt is
looked at first); and when both texts decode, the time cost and the
parallelism are positive and the decoded hash is not empty, it returns a
nil error. -/
theorem decode_error_iff_corrupt (pr : Primitives) (pw saltB64 hashB64 : List Byte)
    (p : Params) :
    (¬ Spec.IsRawStdBase64 (Spec.dropNewlines saltB64) →
      VerifyPassword pr pw saltB64 hashB64 p = .returned (false, some .decodeSalt)) ∧
    (Spec.IsRawStdBase64 (Spec.dropNewlines saltB64) →
      ¬ Spec.IsRawStdBase64 (Spec.dropNewlines hashB64) →
      VerifyPassword pr pw saltB64 hashB64 p = .returned (false, some .decodeHash)) ∧
    (Spec.IsRawStdBase64 (Spec.dropNewlines saltB64) →
      Spec.IsRawStdBase64 (Spec.dropNewlines hashB64) →
      (∀ e ok, VerifyPassword pr pw saltB64 hashB64 p ≠ .returned (ok, some e)) ∧
      (0 < p.Time.val → 0 < p.Threads.val →
        (∀ wantHash, base64.DecodeString hashB64 = some wantHash →
          wantHash.length % 4294967296 ≠ 0) →
        ∃ ok, VerifyPassword pr pw saltB64 hashB64 p = .returned (ok, none))) := by
  refine ⟨?_, ?_, ?_⟩
  · intro hs
    rw [← base64.DecodeString_isSome_iff] at hs
    have : base64.DecodeString saltB64 = none := by
      cases h : base64.DecodeString saltB64 with
      | none => rfl
      | some b => exact absurd ⟨b, h⟩ hs
    unfold VerifyPassword
    rw [this]
  · intro hs hh
    rw [← base64.DecodeString_isSome_iff] at hs hh
    obtain ⟨salt, hsalt⟩ := hs
    have : base64.DecodeString hashB64 = none := by
      cases h : base64.DecodeString hashB64 with
      | none => rfl
      | some b => exact absurd ⟨b, h⟩ hh
    unfold VerifyPassword
    rw [hsalt, this]
  · intro hs hh
    rw [← base64.DecodeString_isSome_iff] at hs hh
    obtain ⟨salt, hsalt⟩ := hs
    obtain ⟨wantHash, hwant⟩ := hh
    constructor
    · intro e ok
      unfold VerifyPassword
      rw [hsalt, hwant]
      simp only []
      split
      · intro h; cases h
      · intro h; cases h
    · intro ht hth hlen
      exact ⟨_, VerifyPassword_decoded pr pw saltB64 hashB64 salt wantHash p hsalt hwant ht hth
        (hlen wantHash hwant)⟩

end password

/-! ## Lemmas: the shape of an encoded text -/

namespace base64

set_option maxRecDepth 100000 in
theorem encodeByte_mem_fin : ∀ i : Fin 64, encodeByte i.val ∈ encodeStd := by
  decide

theorem encodeByte_and_63_mem (x : Nat) : encodeByte (x &&& 63) ∈ encodeStd := by
  rw [and_63]
  exact encodeByte_mem_fin ⟨x % 64, Nat.mod_lt _ (by norm_num)⟩

set_option maxRecDepth 100000 in
theorem pad_not_mem_encodeStd : (61 : Byte) ∉ encodeStd := by
  decide

/-- Every character the encoder writes is one of the standard alphabet. -/
theorem EncodeToString_subset (l : List Byte) : ∀ c ∈ EncodeToString l, c ∈ encodeStd := by
  induction l using EncodeToString.induct with
  | case1 a b c rest ih =>
    rw [EncodeToString]
    intro x hx
    simp only [List.mem_cons] at hx
    rcases hx with rfl | rfl | rfl | rfl | hx
    · exact encodeByte_and_63_mem _
    · exact encodeByte_and_63_mem _
    · exact encodeByte_and_63_mem _
    · exact encodeByte_and_63_mem _
    · exact ih x hx
  | case2 a b =>
    rw [EncodeToString]
    intro x hx
    simp only [List.mem_cons, List.mem_singleton, List.not_mem_nil, or_false] at hx
    rcases hx with rfl | rfl | rfl <;> exact encodeByte_and_63_mem _
  | case3 a =>
    rw [EncodeToString]
    intro x hx
    simp only [List.mem_cons, List.mem_singleton, List.not_mem_nil, or_false] at hx
    rcases hx with rfl | rfl <;> exact encodeByte_and_63_mem _
  | case4 =>
    intro x hx
    simp [EncodeToString] at hx

theorem EncodeToString_no_pad (l : List Byte) : (61 : Byte) ∉ EncodeToString l :=
  fun h => pad_not_mem_encodeStd (EncodeToString_subset l _ h)

/-- The length of an encoded text is Go's `EncodedLen` without padding. -/
theorem EncodeToString_length (l : List Byte) :
    (EncodeToString l).length = (l.length * 8 + 5) / 6 := by
  induction l using EncodeToString.induct with
  | case1 a b c rest ih =>
    rw [EncodeToString]
    simp only [List.length_cons, ih]
    omega
  | case2 a b => simp [EncodeToString]
  | case3 a => simp [EncodeToString]
  | case4 => simp [EncodeToString]

end base64

/-! ## Claims on the encoding and on `ComputeAuthSignature` -/

namespace base64

/-- C11: for every byte string `b` the encoder of `ComputeAuthSignature` and
`HashPassword` writes a text without the padding character "=" (every
character is one of the standard alphabet), and the decoder of
`VerifyPassword` maps that text back to exactly `b`. -/
theorem unpadded_encoding_decodes_back (b : List Byte) :
    (61 : Byte) ∉ EncodeToString b ∧
    (∀ c ∈ EncodeToString b, c ∈ encodeStd) ∧
    DecodeString (EncodeToString b) = some b :=
  ⟨EncodeToString_no_pad b, EncodeToString_subset b, DecodeString_EncodeToString b⟩

end base64

namespace headers

/-- C12: for all secrets, timestamp texts and claims texts, empty ones
included, `ComputeAuthSignature` is the unpadded standard base64 encoding of
the HMAC-SHA256 tag, under the secret, of the timestamp text, a "." and the
claims text; the result has exactly 43 characters, all of the standard
alphabet, none of them "=", and so is never empty. -/
theorem ComputeAuthSignature_shape (pr : Primitives) (secret tsStr claimsB64 : List Byte) :
    ComputeAuthSignature pr secret tsStr claimsB64 =
      base64.EncodeToString (pr.hmacSHA256 secret (tsStr ++ ascii "." ++ claimsB64)) ∧
    (ComputeAuthSignature pr secret tsStr claimsB64).length = 43 ∧
    (∀ c ∈ ComputeAuthSignature pr secret tsStr claimsB64, c ∈ base64.encodeStd) ∧
    (61 : Byte) ∉ ComputeAuthSignature pr secret tsStr claimsB64 ∧
    ComputeAuthSignature pr secret tsStr claimsB64 ≠ [] := by
  refine ⟨rfl, ?_, base64.EncodeToString_subset _, base64.EncodeToString_no_pad _,
    ComputeAuthSignature_ne_nil pr secret tsStr claimsB64⟩
  unfold ComputeAuthSignature
  rw [base64.EncodeToString_length, pr.hmacSHA256_length]

end headers

/-! ## Lemmas: the order of the checks -/

namespace headers

theorem VerifyAuthSignature_missing (pr : Primitives) (now : Int)
    (secret tsStr claimsB64 sig : List Byte) (maxSkew : Int)
    (h : tsStr = [] ∨ claimsB64 = [] ∨ sig = []) :
    VerifyAuthSignature pr now secret tsStr claimsB64 sig maxSkew = some .missingHeaders := by
  unfold VerifyAuthSignature
  rw [if_pos h]

theorem VerifyAuthSignature_unparsed (pr : Primitives) (now : Int)
    (secret tsStr claimsB64 sig : List Byte) (maxSkew : Int) (e : strconv.NumError)
    (h : ¬ (tsStr = [] ∨ claimsB64 = [] ∨ sig = []))
    (hparse : strconv.ParseInt tsStr = .error e) :
    VerifyAuthSignature pr now secret tsStr claimsB64 sig maxSkew = some (.invalidTs e) := by
  unfold VerifyAuthSignature
  rw [if_neg h, hparse]

/-- `VerifyAuthSignature` returns nil exactly when the three texts are not
empty, the timestamp parses into the window the code computes, and the
signature text is the computed one. -/
theorem VerifyAuthSignature_eq_none_iff (pr : Primitives) (now : Int)
    (secret tsStr claimsB64 sig : List Byte) (maxSkew : Int) :
    VerifyAuthSignature pr now secret tsStr claimsB64 sig maxSkew = none ↔
      (tsStr ≠ [] ∧ claimsB64 ≠ [] ∧ sig ≠ []) ∧
      (∃ t, strconv.ParseInt tsStr = .ok t ∧
        wrapInt64 (now - time.truncToInt64 (time.Seconds maxSkew)) ≤ t ∧
        t ≤ wrapInt64 (now + time.truncToInt64 (time.Seconds maxSkew))) ∧
      sig = ComputeAuthSignature pr secret tsStr claimsB64 := by
  by_cases hempty : tsStr = [] ∨ claimsB64 = [] ∨ sig = []
  · rw [VerifyAuthSignature_missing pr now secret tsStr claimsB64 sig maxSkew hempty]
    constructor
    · intro h; cases h
    · rintro ⟨⟨h1, h2, h3⟩, _⟩
      rcases hempty with h | h | h
      · exact absurd h h1
      · exact absurd h h2
      · exact absurd h h3
  · have hne : tsStr ≠ [] ∧ claimsB64 ≠ [] ∧ sig ≠ [] := by
      refine ⟨fun h => hempty (Or.inl h), fun h => hempty (Or.inr (Or.inl h)),
        fun h => hempty (Or.inr (Or.inr h))⟩
    cases hparse : strconv.ParseInt tsStr with
    | error e =>
      rw [VerifyAuthSignature_unparsed pr now secret tsStr claimsB64 sig maxSkew e hempty hparse]
      constructor
      · intro h; cases h
      · rintro ⟨_, ⟨t, ht, _⟩, _⟩
        cases ht
    | ok t =>
      rw [VerifyAuthSignature_parsed pr now secret tsStr claimsB64 sig maxSkew t hparse,
        if_neg (fun h => hempty (Or.inr h))]
      by_cases hwin : t > wrapInt64 (now + time.truncToInt64 (time.Seconds maxSkew)) ∨
          t < wrapInt64 (now - time.truncToInt64 (time.Seconds maxSkew))
      · rw [if_pos hwin]
        constructor
        · intro h; cases h
        · rintro ⟨_, ⟨u, hu, h1, h2⟩, _⟩
          cases hu
          omega
      · rw [if_neg hwin]
        by_cases hsig : sig = ComputeAuthSignature pr secret tsStr claimsB64
        · rw [if_pos hsig]
          exact ⟨fun _ => ⟨hne, ⟨t, rfl, by omega, by omega⟩, hsig⟩, fun _ => rfl⟩
        · rw [if_neg hsig]
          constructor
          · intro h; cases h
          · rintro ⟨_, _, h⟩
            exact absurd h hsig

end headers

/-! ## Claims on the checks of `VerifyAuthSignature` -/

namespace headers

/-- C13: the expected signature that `VerifyAuthSignature` builds is
`ComputeAuthSignature` of the same secret, timestamp text and claims text,
and for every input `VerifyAuthSignature` succeeds exactly when the three
texts are not empty, the timestamp parses to `t` with
`now - skew ≤ t ≤ now + skew` and the signature text equals
`ComputeAuthSignature secret tsStr claimsB64`; the two bounds are the
`int64` values the code computes, which are `now - skew` and `now + skew`
whenever these are `int64` values. -/
theorem verify_succeeds_iff_computed (pr : Primitives) (now : Int)
    (secret tsStr claimsB64 sig : List Byte) (maxSkew : Int) :
    base64.EncodeToString (pr.hmacSHA256 secret (tsStr ++ ascii "." ++ claimsB64)) =
      ComputeAuthSignature pr secret tsStr claimsB64 ∧
    (VerifyAuthSignature pr now secret tsStr claimsB64 sig maxSkew = none ↔
      (tsStr ≠ [] ∧ claimsB64 ≠ [] ∧ sig ≠ []) ∧
      (∃ t, strconv.ParseInt tsStr = .ok t ∧
        wrapInt64 (now - time.truncToInt64 (time.Seconds maxSkew)) ≤ t ∧
        t ≤ wrapInt64 (now + time.truncToInt64 (time.Seconds maxSkew))) ∧
      sig = ComputeAuthSignature pr secret tsStr claimsB64) ∧
    (IsInt64 (now - time.truncToInt64 (time.Seconds maxSkew)) →
      IsInt64 (now + time.truncToInt64 (time.Seconds maxSkew)) →
      (VerifyAuthSignature pr now secret tsStr claimsB64 sig maxSkew = none ↔
        (tsStr ≠ [] ∧ claimsB64 ≠ [] ∧ sig ≠ []) ∧
        (∃ t, strconv.ParseInt tsStr = .ok t ∧
          now - time.truncToInt64 (time.Seconds maxSkew) ≤ t ∧
          t ≤ now + time.truncToInt64 (time.Seconds maxSkew)) ∧
        sig = ComputeAuthSignature pr secret tsStr claimsB64)) := by
  refine ⟨rfl, VerifyAuthSignature_eq_none_iff pr now secret tsStr claimsB64 sig maxSkew, ?_⟩
  intro hlo hhi
  have h := VerifyAuthSignature_eq_none_iff pr now secret tsStr claimsB64 sig maxSkew
  rw [wrapInt64_of_isInt64 hlo, wrapInt64_of_isInt64 hhi] at h
  exact h

/-- C17: the three cheap checks come first and in the order missing-headers,
bad-timestamp, out-of-range; a request that fails one of them gets the same
error for every secret and every HMAC function, and the signature-mismatch
error is returned only when the three texts are not empty and the timestamp
parses into the window. -/
theorem cheap_checks_before_hmac (pr pr2 : Primitives) (now : Int)
    (secret secret2 tsStr claimsB64 sig : List Byte) (maxSkew : Int) :
    ((tsStr = [] ∨ claimsB64 = [] ∨ sig = []) →
      VerifyAuthSignature pr now secret tsStr claimsB64 sig maxSkew = some .missingHeaders) ∧
    (¬ (tsStr = [] ∨ claimsB64 = [] ∨ sig = []) → ∀ e, strconv.ParseInt tsStr = .error e →
      VerifyAuthSignature pr now secret tsStr claimsB64 sig maxSkew = some (.invalidTs e)) ∧
    (¬ (tsStr = [] ∨ claimsB64 = [] ∨ sig = []) → ∀ t, strconv.ParseInt tsStr = .ok t →
      (t > wrapInt64 (now + time.truncToInt64 (time.Seconds maxSkew)) ∨
        t < wrapInt64 (now - time.truncToInt64 (time.Seconds maxSkew))) →
      VerifyAuthSignature pr now secret tsStr claimsB64 sig maxSkew = some .tsOutOfRange) ∧
    (VerifyAuthSignature pr now secret tsStr claimsB64 sig maxSkew ≠ none →
      VerifyAuthSignature pr now secret tsStr claimsB64 sig maxSkew ≠ some .invalidSig →
      VerifyAuthSignature pr2 now secret2 tsStr claimsB64 sig maxSkew =
        VerifyAuthSignature pr now secret tsStr claimsB64 sig maxSkew) ∧
    (VerifyAuthSignature pr now secret tsStr claimsB64 sig maxSkew = some .invalidSig →
      (tsStr ≠ [] ∧ claimsB64 ≠ [] ∧ sig ≠ []) ∧
      ∃ t, strconv.ParseInt tsStr = .ok t ∧
        wrapInt64 (now - time.truncToInt64 (time.Seconds maxSkew)) ≤ t ∧
        t ≤ wrapInt64 (now + time.truncToInt64 (time.Seconds maxSkew))) := by
  refine ⟨VerifyAuthSignature_missing pr now secret tsStr claimsB64 sig maxSkew,
    fun h e he => VerifyAuthSignature_unparsed pr now secret tsStr claimsB64 sig maxSkew e h he,
    ?_, ?_, ?_⟩
  · intro h t ht hwin
    rw [VerifyAuthSignature_parsed pr now secret tsStr claimsB64 sig maxSkew t ht,
      if_neg (fun h' => h (Or.inr h')), if_pos hwin]
  · intro hnone hsig
    by_cases hempty : tsStr = [] ∨ claimsB64 = [] ∨ sig = []
    · rw [VerifyAuthSignature_missing pr now secret tsStr claimsB64 sig maxSkew hempty,
        VerifyAuthSignature_missing pr2 now secret2 tsStr claimsB64 sig maxSkew hempty]
    · cases hparse : strconv.ParseInt tsStr with
      | error e =>
        rw [VerifyAuthSignature_unparsed pr now secret tsStr claimsB64 sig maxSkew e hempty
            hparse,
          VerifyAuthSignature_unparsed pr2 now secret2 tsStr claimsB64 sig maxSkew e hempty
            hparse]
      | ok t =>
        rw [VerifyAuthSignature_parsed pr now secret tsStr claimsB64 sig maxSkew t hparse,
          if_neg (fun h' => hempty (Or.inr h'))] at hnone hsig ⊢
        rw [VerifyAuthSignature_parsed pr2 now secret2 tsStr claimsB64 sig maxSkew t hparse,
          if_neg (fun h' => hempty (Or.inr h'))]
        by_cases hwin : t > wrapInt64 (now + time.truncToInt64 (time.Seconds maxSkew)) ∨
            t < wrapInt64 (now - time.truncToInt64 (time.Seconds maxSkew))
        · rw [if_pos hwin, if_pos hwin]
        · rw [if_neg hwin] at hnone hsig
          exfalso
          by_cases hs : sig = ComputeAuthSignature pr secret tsStr claimsB64
          · rw [if_pos hs] at hnone
            exact hnone rfl
          · rw [if_neg hs] at hsig
            exact hsig rfl
  · intro hsig
    by_cases hempty : tsStr = [] ∨ claimsB64 = [] ∨ sig = []
    · rw [VerifyAuthSignature_missing pr now secret tsStr claimsB64 sig maxSkew hempty] at hsig
      cases hsig
    · have hne : tsStr ≠ [] ∧ claimsB64 ≠ [] ∧ sig ≠ [] :=
        ⟨fun h => hempty (Or.inl h), fun h => hempty (Or.inr (Or.inl h)),
          fun h => hempty (Or.inr (Or.inr h))⟩
      refine ⟨hne, ?_⟩
      cases hparse : strconv.ParseInt tsStr with
      | error e =>
        rw [VerifyAuthSignature_unparsed pr now secret tsStr claimsB64 sig maxSkew e hempty
          hparse] at hsig
        cases hsig
      | ok t =>
        rw [VerifyAuthSignature_parsed pr now secret tsStr claimsB64 sig maxSkew t hparse,
          if_neg (fun h' => hempty (Or.inr h'))] at hsig
        by_cases hwin : t > wrapInt64 (now + time.truncToInt64 (time.Seconds maxSkew)) ∨
            t < wrapInt64 (now - time.truncToInt64 (time.Seconds maxSkew))
        · rw [if_pos hwin] at hsig
          cases hsig
        · exact ⟨t, rfl, by omega, by omega⟩

end headers

/-! ## Lemmas: the separator of the signed message -/

namespace strconv

theorem digit_ne_dot {d : Byte} (h : Spec.IsDigit d) : d ≠ 46 := by
  intro hd
  rw [hd] at h
  revert h
  decide

/-- A text that denotes a signed decimal has no "." in it. -/
theorem dot_not_mem_of_signedDecimal {s : List Byte} {t : Int}
    (h : Spec.signedDecimal s = some t) : (46 : Byte) ∉ s := by
  unfold Spec.signedDecimal at h
  cases s with
  | nil => cases h
  | cons c rest =>
    simp only [] at h
    intro hmem
    by_cases h43 : c.val = 43
    · rw [if_pos h43] at h
      split at h
      · rename_i hd
        rcases List.mem_cons.mp hmem with hc | hc
        · rw [← hc] at h43
          revert h43
          decide
        · exact digit_ne_dot (hd.2 _ hc) rfl
      · cases h
    · rw [if_neg h43] at h
      by_cases h45 : c.val = 45
      · rw [if_pos h45] at h
        split at h
        · rename_i hd
          rcases List.mem_cons.mp hmem with hc | hc
          · rw [← hc] at h45
            revert h45
            decide
          · exact digit_ne_dot (hd.2 _ hc) rfl
        · cases h
      · rw [if_neg h45] at h
        split at h
        · rename_i hd
          exact digit_ne_dot (hd _ hmem) rfl
        · cases h

theorem dot_not_mem_of_ParseInt {s : List Byte} {t : Int} (h : ParseInt s = .ok t) :
    (46 : Byte) ∉ s :=
  dot_not_mem_of_signedDecimal ((ParseInt_eq_ok s t).mp h).1

end strconv

namespace headers

/-- Two texts without the separator that are followed by the separator are
recovered from the concatenation. -/
theorem append_sep_inj (x : Byte) (T1 T2 C1 C2 : List Byte) (h1 : x ∉ T1) (h2 : x ∉ T2)
    (h : T1 ++ x :: C1 = T2 ++ x :: C2) : T1 = T2 ∧ C1 = C2 := by
  induction T1 generalizing T2 with
  | nil =>
    cases T2 with
    | nil =>
      simp only [List.nil_append, List.cons.injEq, true_and] at h
      exact ⟨rfl, h⟩
    | cons b T2 =>
      simp only [List.nil_append, List.cons_append, List.cons.injEq] at h
      exact absurd (List.mem_cons.mpr (Or.inl h.1)) h2
  | cons a T1 ih =>
    cases T2 with
    | nil =>
      simp only [List.nil_append, List.cons_append, List.cons.injEq] at h
      exact absurd (List.mem_cons.mpr (Or.inl h.1.symm)) h1
    | cons b T2 =>
      simp only [List.cons_append, List.cons.injEq] at h
      have := ih T2 (fun hm => h1 (List.mem_cons_of_mem _ hm))
        (fun hm => h2 (List.mem_cons_of_mem _ hm)) h.2
      exact ⟨by rw [h.1, this.1], this.2⟩

theorem ascii_dot : ascii "." = [46] := by
  rfl

/-- C19: `ComputeAuthSignature` alone does not tell the pair ("1", "2.3")
from the pair ("1.2", "3"), for every secret; but for timestamp texts that
parse as base-10 signed integers the message determines the timestamp text
and the claims text, since a parsable timestamp has no "." in it. -/
theorem message_unambiguous_for_parsed_timestamps :
    (ascii "1" ≠ ascii "1.2" ∧ ∀ (pr : Primitives) (secret : List Byte),
      ComputeAuthSignature pr secret (ascii "1") (ascii "2.3") =
        ComputeAuthSignature pr secret (ascii "1.2") (ascii "3")) ∧
    (∀ (T1 T2 C1 C2 : List Byte) (t1 t2 : Int),
      strconv.ParseInt T1 = .ok t1 → strconv.ParseInt T2 = .ok t2 →
      T1 ++ ascii "." ++ C1 = T2 ++ ascii "." ++ C2 → T1 = T2 ∧ C1 = C2) := by
  refine ⟨⟨by decide, ?_⟩, ?_⟩
  · intro pr secret
    unfold ComputeAuthSignature
    have : ascii "1" ++ ascii "." ++ ascii "2.3" = ascii "1.2" ++ ascii "." ++ ascii "3" := by
      rfl
    simp only [this]
  · intro T1 T2 C1 C2 t1 t2 h1 h2 h
    rw [ascii_dot, List.append_assoc, List.append_assoc, List.singleton_append,
      List.singleton_append] at h
    exact append_sep_inj 46 T1 T2 C1 C2 (strconv.dot_not_mem_of_ParseInt h1)
      (strconv.dot_not_mem_of_ParseInt h2) h

end headers

/-! ## Lemmas: the parameters `VerifyPassword` reads -/

namespace password

theorem VerifyPassword_congr (pr : Primitives) (pw saltB64 hashB64 : List Byte) (p p2 : Params)
    (hT : p.Time = p2.Time) (hM : p.Memory = p2.Memory) (hTh : p.Threads = p2.Threads) :
    VerifyPassword pr pw saltB64 hashB64 p = VerifyPassword pr pw saltB64 hashB64 p2 := by
  unfold VerifyPassword
  rw [hT, hM, hTh]

/-- A credential made under `p` verifies under the time cost, memory cost
and parallelism of `p`. -/
theorem VerifyPassword_of_HashPassword (pr : Primitives) (rnd : RandSource)
    (pw saltB64 hashB64 : List Byte) (p : Params)
    (h : HashPassword pr rnd pw p = .returned ⟨saltB64, hashB64, none⟩) :
    VerifyPassword pr pw saltB64 hashB64 p = .returned (true, none) := by
  obtain ⟨_, hz, salt, _, rfl, rfl⟩ := HashPassword_ok h
  unfold Spec.HasZeroField at hz
  have hk := pr.argon2id_length pw salt p.Time.val p.Memory.val p.Threads.val p.KeyLen.val
  have hlt := p.KeyLen.isLt
  have hmod : (pr.argon2id pw salt p.Time.val p.Memory.val p.Threads.val
      p.KeyLen.val).length % 4294967296 = p.KeyLen.val := by
    rw [hk]
    exact Nat.mod_eq_of_lt hlt
  rw [VerifyPassword_decoded pr pw _ _ salt _ p (base64.DecodeString_EncodeToString _)
    (base64.DecodeString_EncodeToString _) (by omega) (by omega) (by rw [hmod]; omega), hmod]
  simp

theorem HashPassword_ne_panicked (pr : Primitives) (rnd : RandSource) (pw : List Byte)
    (p : Params) : HashPassword pr rnd pw p ≠ .panicked := by
  unfold HashPassword
  split
  · intro h; cases h
  · split
    · intro h; cases h
    · rename_i hz
      split
      · intro h; cases h
      · unfold argon2.IDKey
        rw [if_neg (by omega), if_neg (by omega), if_neg (by omega)]
        intro h
        cases h

end password

/-! ## Claims on the stored credential -/

namespace password

/-- C14: `VerifyPassword` derives a key whose length is the length of the
decoded stored hash and compares it with that hash: when the two texts
decode to `salt` and `wantHash` (time cost and parallelism positive, the
hash not empty), the result is `(ok, nil)` where `ok` says whether the
Argon2id key of `len(wantHash)` bytes, derived from the password and `salt`
under `Time`, `Memory` and `Threads`, equals `wantHash`. So for parameters
that agree on these three the result is the same, whatever `KeyLen` and
`SaltLen` are, and a credential that `HashPassword` made under the one
verifies as true under the other. -/
theorem verify_ignores_key_and_salt_length (pr : Primitives)
    (pw saltB64 hashB64 : List Byte) (p p2 : Params)
    (hT : p.Time = p2.Time) (hM : p.Memory = p2.Memory) (hTh : p.Threads = p2.Threads) :
    VerifyPassword pr pw saltB64 hashB64 p = VerifyPassword pr pw saltB64 hashB64 p2 ∧
    (∀ rnd : RandSource, HashPassword pr rnd pw p = .returned ⟨saltB64, hashB64, none⟩ →
      VerifyPassword pr pw saltB64 hashB64 p2 = .returned (true, none)) ∧
    (∀ salt wantHash : List Byte,
      base64.DecodeString saltB64 = some salt → base64.DecodeString hashB64 = some wantHash →
      0 < p.Time.val → 0 < p.Threads.val → wantHash.length % 4294967296 ≠ 0 →
      VerifyPassword pr pw saltB64 hashB64 p2 =
        .returned (decide (pr.argon2id pw salt p.Time.val p.Memory.val p.Threads.val
          (wantHash.length % 4294967296) = wantHash), none) ∧
      (pr.argon2id pw salt p.Time.val p.Memory.val p.Threads.val
        (wantHash.length % 4294967296)).length = wantHash.length % 4294967296 ∧
      (wantHash.length < 4294967296 →
        (pr.argon2id pw salt p.Time.val p.Memory.val p.Threads.val
          (wantHash.length % 4294967296)).length = wantHash.length) ∧
      (VerifyPassword pr pw saltB64 hashB64 p2 = .returned (true, none) ↔
        pr.argon2id pw salt p.Time.val p.Memory.val p.Threads.val
          (wantHash.length % 4294967296) = wantHash)) := by
  have hc := VerifyPassword_congr pr pw saltB64 hashB64 p p2 hT hM hTh
  refine ⟨hc, fun rnd h => ?_, ?_⟩
  · rw [← hc]
    exact VerifyPassword_of_HashPassword pr rnd pw saltB64 hashB64 p h
  · intro salt wantHash hs hh ht hth hlen
    have hv := VerifyPassword_decoded pr pw saltB64 hashB64 salt wantHash p hs hh ht hth hlen
    rw [hc] at hv
    have hl := pr.argon2id_length pw salt p.Time.val p.Memory.val p.Threads.val
      (wantHash.length % 4294967296)
    refine ⟨hv, hl, fun hlt => ?_, ?_⟩
    · rw [hl, Nat.mod_eq_of_lt hlt]
    · rw [hv]
      simp

/-- C14, witness: under the default parameters, whose `KeyLen` is 32, a
credential made with `KeyLen = 64` verifies as true, and the stored hash
"QUJD", three bytes that are not the derived key of three bytes, verifies as
false. -/
theorem verify_ignores_key_and_salt_length_witness :
    VerifyPassword Primitives.sample (ascii "hunter2")
      (base64.EncodeToString (List.replicate 16 0))
      (base64.EncodeToString (List.replicate 64 0)) DefaultParams = .returned (true, none) ∧
    VerifyPassword Primitives.sample (ascii "hunter2") (ascii "AAAAAAAAAAAAAAAAAAAAAA")
      (ascii "QUJD") DefaultParams = .returned (false, none) :=
  ⟨(verify_ignores_key_and_salt_length Primitives.sample (ascii "hunter2") _ _
      { DefaultParams with KeyLen := 64 } DefaultParams rfl rfl rfl).2.1 RandSource.zeros
      (by rfl),
    ((verify_ignores_key_and_salt_length Primitives.sample (ascii "hunter2")
      (ascii "AAAAAAAAAAAAAAAAAAAAAA") (ascii "QUJD") { DefaultParams with KeyLen := 64 }
      DefaultParams rfl rfl rfl).2.2 (List.replicate 16 0) [65, 66, 67] (by rfl) (by rfl)
      (by decide) (by decide) (by decide)).1.trans (by rfl)⟩

/-- C18: whenever `HashPassword` succeeds, the salt text decodes to the
`SaltLen` bytes that the random source delivered, and the hash text decodes
to the `KeyLen` bytes of the Argon2id key of the password under that salt,
`Time`, `Memory` and `Threads`. -/
theorem credential_lengths (pr : Primitives) (rnd : RandSource)
    (pw saltB64 hashB64 : List Byte) (p : Params)
    (h : HashPassword pr rnd pw p = .returned ⟨saltB64, hashB64, none⟩) :
    ∃ salt, rnd.Read p.SaltLen.val = some salt ∧
      base64.DecodeString saltB64 = some salt ∧ salt.length = p.SaltLen.val ∧
      base64.DecodeString hashB64 =
        some (pr.argon2id pw salt p.Time.val p.Memory.val p.Threads.val p.KeyLen.val) ∧
      (pr.argon2id pw salt p.Time.val p.Memory.val p.Threads.val p.KeyLen.val).length =
        p.KeyLen.val := by
  obtain ⟨_, _, salt, hread, rfl, rfl⟩ := HashPassword_ok h
  exact ⟨salt, hread, base64.DecodeString_EncodeToString _, rnd.Read_length _ _ hread,
    base64.DecodeString_EncodeToString _, pr.argon2id_length _ _ _ _ _ _⟩

/-- C18, witness: the default parameters, the password "hunter2" and a random
source that delivers sixteen zero bytes. -/
theorem credential_lengths_witness :
    ∃ salt, RandSource.zeros.Read 16 = some salt ∧
      base64.DecodeString (base64.EncodeToString (List.replicate 16 0)) = some salt ∧
      salt.length = 16 ∧
      base64.DecodeString (base64.EncodeToString (List.replicate 32 0)) =
        some (Primitives.sample.argon2id (ascii "hunter2") salt 2 19456 1 32) ∧
      (Primitives.sample.argon2id (ascii "hunter2") salt 2 19456 1 32).length = 32 :=
  credential_lengths Primitives.sample RandSource.zeros (ascii "hunter2") _ _ DefaultParams
    (by rfl)

/-- C15: `HashPassword` never panics, but `VerifyPassword` does not check
its parameters or the decoded hash: with a time cost of 0, with a
parallelism of 0, or with an empty stored hash it calls the Argon2id
derivation, which panics. -/
theorem VerifyPassword_panics_on_bad_input (pr : Primitives) (pw : List Byte) :
    (∀ (rnd : RandSource) (p : Params), HashPassword pr rnd pw p ≠ .panicked) ∧
    VerifyPassword pr pw (ascii "AAAAAAAAAAAAAAAAAAAAAA") (ascii "AAAA")
      { DefaultParams with Time := 0 } = .panicked ∧
    VerifyPassword pr pw (ascii "AAAAAAAAAAAAAAAAAAAAAA") (ascii "AAAA")
      { DefaultParams with Threads := 0 } = .panicked ∧
    VerifyPassword pr pw (ascii "AAAAAAAAAAAAAAAAAAAAAA") [] DefaultParams = .panicked := by
  have hs : base64.DecodeString (ascii "AAAAAAAAAAAAAAAAAAAAAA") =
      some (List.replicate 16 0) := by rfl
  have hh : base64.DecodeString (ascii "AAAA") = some [0, 0, 0] := by rfl
  have he : base64.DecodeString [] = some [] := by rfl
  refine ⟨fun rnd p => HashPassword_ne_panicked pr rnd pw p, ?_, ?_, ?_⟩
  · unfold VerifyPassword
    rw [hs, hh]
    rfl
  · unfold VerifyPassword
    rw [hs, hh]
    rfl
  · unfold VerifyPassword
    rw [hs, he]
    rfl

end password

/-! ## Lemmas: bounds on `int64(maxSkew.Seconds())` -/

namespace time

theorem le_roundHalfEven {n : ℤ} {x : ℚ} (h : (n : ℚ) ≤ x) : n ≤ roundHalfEven x := by
  have hf : n ≤ ⌊x⌋ := Int.le_floor.mpr h
  unfold roundHalfEven
  simp only []
  split
  · exact hf
  · split
    · omega
    · split <;> omega

theorem roundHalfEven_le {n : ℤ} {x : ℚ} (h : x ≤ (n : ℚ)) : roundHalfEven x ≤ n := by
  rcases eq_or_lt_of_le h with heq | hlt
  · rw [heq, roundHalfEven_intCast]
  · have hf : ⌊x⌋ < n := Int.floor_lt.mpr hlt
    unfold roundHalfEven
    simp only []
    split
    · omega
    · split
      · omega
      · split <;> omega

/-- Rounding to `float64` does not cross a value `lo` or `hi` that is a
multiple of `2^(E-52)`, when the rounded value is below `2^(E+1)` in
magnitude: such a value is itself a `float64` of that range. -/
theorem float64_between (q lo hi : ℚ) (E mlo mhi : ℤ)
    (hlo : lo = (mlo : ℚ) * (2 : ℚ) ^ (E - 52)) (hhi : hi = (mhi : ℚ) * (2 : ℚ) ^ (E - 52))
    (hq : |q| < (2 : ℚ) ^ (E + 1)) (h1 : lo ≤ q) (h2 : q ≤ hi) :
    lo ≤ float64 q ∧ float64 q ≤ hi := by
  unfold float64
  by_cases hq0 : q = 0
  · rw [if_pos hq0]
    rw [hq0] at h1 h2
    exact ⟨h1, h2⟩
  rw [if_neg hq0]
  have hpos : (0 : ℚ) < |q| := abs_pos.mpr hq0
  have he : Int.log 2 |q| < E + 1 :=
    (Int.lt_zpow_iff_log_lt (b := 2) (by norm_num) hpos).mp (by exact_mod_cast hq)
  obtain ⟨k, hk⟩ : ∃ k : ℕ, E - 52 = (k : ℤ) + (Int.log 2 |q| - 52) :=
    ⟨(E - Int.log 2 |q|).toNat, by omega⟩
  have hu : (0 : ℚ) < (2 : ℚ) ^ (Int.log 2 |q| - 52) := zpow_pos (by norm_num) _
  have hsplit : (2 : ℚ) ^ (E - 52) = (2 : ℚ) ^ k * (2 : ℚ) ^ (Int.log 2 |q| - 52) := by
    rw [hk, zpow_add₀ (by norm_num), zpow_natCast]
  simp only []
  constructor
  · have hle : ((mlo * 2 ^ k : ℤ) : ℚ) ≤ q / (2 : ℚ) ^ (Int.log 2 |q| - 52) := by
      rw [le_div_iff₀ hu]
      push_cast
      rw [mul_assoc, ← hsplit, ← hlo]
      exact h1
    have := le_roundHalfEven hle
    have hc : ((mlo * 2 ^ k : ℤ) : ℚ) ≤
        (roundHalfEven (q / (2 : ℚ) ^ (Int.log 2 |q| - 52)) : ℚ) := by exact_mod_cast this
    calc lo = ((mlo * 2 ^ k : ℤ) : ℚ) * (2 : ℚ) ^ (Int.log 2 |q| - 52) := by
          rw [hlo, hsplit]; push_cast; ring
      _ ≤ _ := mul_le_mul_of_nonneg_right hc hu.le
  · have hle : q / (2 : ℚ) ^ (Int.log 2 |q| - 52) ≤ ((mhi * 2 ^ k : ℤ) : ℚ) := by
      rw [div_le_iff₀ hu]
      push_cast
      rw [mul_assoc, ← hsplit, ← hhi]
      exact h2
    have := roundHalfEven_le hle
    have hc : (roundHalfEven (q / (2 : ℚ) ^ (Int.log 2 |q| - 52)) : ℚ) ≤
        ((mhi * 2 ^ k : ℤ) : ℚ) := by exact_mod_cast this
    calc _ ≤ ((mhi * 2 ^ k : ℤ) : ℚ) * (2 : ℚ) ^ (Int.log 2 |q| - 52) :=
          mul_le_mul_of_nonneg_right hc hu.le
      _ = hi := by rw [hhi, hsplit]; push_cast; ring

end time

namespace time

theorem tdiv_tmod_of_nonneg {d : ℤ} (h : 0 ≤ d) :
    Int.tdiv d 1000000000 = d / 1000000000 ∧ Int.tmod d 1000000000 = d % 1000000000 :=
  ⟨Int.tdiv_eq_ediv h (by norm_num), Int.tmod_eq_emod h (by norm_num)⟩

theorem tdiv_tmod_of_nonpos {d : ℤ} (h : d ≤ 0) :
    Int.tdiv d 1000000000 = -((-d) / 1000000000) ∧
      Int.tmod d 1000000000 = -((-d) % 1000000000) := by
  have h1 : Int.tdiv d 1000000000 = -((-d) / 1000000000) := by
    have := Int.neg_tdiv (-d) 1000000000
    rw [neg_neg] at this
    rw [this, Int.tdiv_eq_ediv (by omega) (by norm_num)]
  refine ⟨h1, ?_⟩
  rw [Int.tmod_def, h1]
  omega

/-- The rounded fraction `float64(nsec)/1e9` stays within `1 - 2^-30` of zero,
on the side of `nsec`. -/
theorem fraction_between (nsec : ℤ) (h1 : -1000000000 < nsec) (h2 : nsec < 1000000000) :
    (0 ≤ nsec → 0 ≤ float64 (float64 (nsec : ℚ) / 1000000000) ∧
      float64 (float64 (nsec : ℚ) / 1000000000) ≤ 1073741823 / 1073741824) ∧
    (nsec ≤ 0 → -(1073741823 / 1073741824) ≤ float64 (float64 (nsec : ℚ) / 1000000000) ∧
      float64 (float64 (nsec : ℚ) / 1000000000) ≤ 0) := by
  have hcast : float64 (nsec : ℚ) = nsec :=
    float64_intCast nsec (by rw [abs_lt]; constructor <;> omega)
  rw [hcast]
  have hq1 : (-1000000000 : ℚ) < (nsec : ℚ) := by exact_mod_cast h1
  have hq2 : (nsec : ℚ) < 1000000000 := by exact_mod_cast h2
  have habs : |(nsec : ℚ) / 1000000000| < (2 : ℚ) ^ ((-1 : ℤ) + 1) := by
    rw [abs_lt]
    norm_num
    constructor
    · rw [lt_div_iff₀ (by norm_num)]; linarith
    · rw [div_lt_iff₀ (by norm_num)]; linarith
  constructor
  · intro hn
    have hq0 : (0 : ℚ) ≤ (nsec : ℚ) := by exact_mod_cast hn
    have hq3 : (nsec : ℚ) ≤ 999999999 := by exact_mod_cast (show nsec ≤ 999999999 by omega)
    exact float64_between _ 0 (1073741823 / 1073741824) (-1) 0 9007199246352384
      (by norm_num) (by norm_num) habs (by positivity)
      (by rw [div_le_iff₀ (by norm_num)]; linarith)
  · intro hn
    have hq0 : (nsec : ℚ) ≤ 0 := by exact_mod_cast hn
    have hq3 : (-999999999 : ℚ) ≤ (nsec : ℚ) := by
      exact_mod_cast (show -999999999 ≤ nsec by omega)
    exact float64_between _ (-(1073741823 / 1073741824)) 0 (-1) (-9007199246352384) 0
      (by norm_num) (by norm_num) habs
      (by rw [le_div_iff₀ (by norm_num)]; linarith)
      (by apply div_nonpos_of_nonpos_of_nonneg hq0; norm_num)

end time

namespace time

/-- For a window that is not negative `Seconds` lies between the whole
seconds and one more; for a window below `2^23` seconds it stays below the
next whole second. -/
theorem Seconds_of_nonneg (d : ℤ) (h0 : 0 ≤ d) (h : d ≤ 9223372036854775807) :
    (((d / 1000000000 : ℤ) : ℚ) ≤ Seconds d ∧ Seconds d ≤ ((d / 1000000000 : ℤ) : ℚ) + 1) ∧
    (d < 8388608000000000 →
      Seconds d ≤ ((d / 1000000000 : ℤ) : ℚ) + 1073741823 / 1073741824) := by
  obtain ⟨hs, hn⟩ := tdiv_tmod_of_nonneg h0
  unfold Seconds
  simp only [hs, hn]
  have hsec0 : 0 ≤ d / 1000000000 := by omega
  have hsec1 : d / 1000000000 ≤ 9223372036 := by omega
  have hcast : float64 ((d / 1000000000 : ℤ) : ℚ) = ((d / 1000000000 : ℤ) : ℚ) :=
    float64_intCast _ (by rw [abs_lt]; constructor <;> omega)
  rw [hcast]
  obtain ⟨hf0, hf1⟩ := (fraction_between (d % 1000000000) (by omega) (by omega)).1 (by omega)
  have hq0 : (0 : ℚ) ≤ ((d / 1000000000 : ℤ) : ℚ) := by exact_mod_cast hsec0
  have hq1 : ((d / 1000000000 : ℤ) : ℚ) ≤ 9223372036 := by exact_mod_cast hsec1
  constructor
  · apply float64_between _ _ _ 33 (d / 1000000000 * 524288) ((d / 1000000000 + 1) * 524288)
    · push_cast; norm_num; ring
    · push_cast; norm_num; ring
    · rw [abs_lt]; norm_num; constructor <;> linarith
    · linarith
    · linarith
  · intro hsmall
    have hsec2 : d / 1000000000 ≤ 8388607 := by omega
    have hq2 : ((d / 1000000000 : ℤ) : ℚ) ≤ 8388607 := by exact_mod_cast hsec2
    refine (float64_between _ ((d / 1000000000 : ℤ) : ℚ) _ 22 (d / 1000000000 * 1073741824)
      ((d / 1000000000 + 1) * 1073741824 - 1) ?_ ?_ ?_ ?_ ?_).2
    · push_cast; norm_num; ring
    · push_cast; norm_num; ring
    · rw [abs_lt]; norm_num; constructor <;> linarith
    · linarith
    · linarith

/-- The mirror image for a window that is not positive. -/
theorem Seconds_of_nonpos (d : ℤ) (h0 : d ≤ 0) (h : -9223372036854775808 ≤ d) :
    ((-((-d) / 1000000000 : ℤ) : ℚ) - 1 ≤ Seconds d ∧
      Seconds d ≤ (-((-d) / 1000000000 : ℤ) : ℚ)) ∧
    (-8388608000000000 < d →
      (-((-d) / 1000000000 : ℤ) : ℚ) - 1073741823 / 1073741824 ≤ Seconds d) := by
  obtain ⟨hs, hn⟩ := tdiv_tmod_of_nonpos h0
  unfold Seconds
  simp only [hs, hn]
  have hsec0 : 0 ≤ (-d) / 1000000000 := by omega
  have hsec1 : (-d) / 1000000000 ≤ 9223372036 := by omega
  have hcast : float64 ((-((-d) / 1000000000) : ℤ) : ℚ) = ((-((-d) / 1000000000) : ℤ) : ℚ) :=
    float64_intCast _ (by rw [abs_lt]; constructor <;> omega)
  rw [hcast]
  obtain ⟨hf0, hf1⟩ :=
    (fraction_between (-((-d) % 1000000000)) (by omega) (by omega)).2 (by omega)
  have hq0 : (0 : ℚ) ≤ (((-d) / 1000000000 : ℤ) : ℚ) := by exact_mod_cast hsec0
  have hq1 : (((-d) / 1000000000 : ℤ) : ℚ) ≤ 9223372036 := by exact_mod_cast hsec1
  push_cast at hf0 hf1 ⊢
  constructor
  · apply float64_between _ _ _ 33 ((-((-d) / 1000000000) - 1) * 524288)
      (-((-d) / 1000000000) * 524288)
    · push_cast; norm_num; ring
    · push_cast; norm_num; ring
    · rw [abs_lt]; norm_num; constructor <;> linarith
    · linarith
    · linarith
  · intro hsmall
    have hsec2 : (-d) / 1000000000 ≤ 8388607 := by omega
    have hq2 : (((-d) / 1000000000 : ℤ) : ℚ) ≤ 8388607 := by exact_mod_cast hsec2
    refine (float64_between _ _ (-(((-d) / 1000000000 : ℤ) : ℚ)) 22
      ((-((-d) / 1000000000) - 1) * 1073741824 + 1) (-((-d) / 1000000000) * 1073741824)
      ?_ ?_ ?_ ?_ ?_).1
    · push_cast; norm_num; ring
    · push_cast; norm_num; ring
    · rw [abs_lt]; norm_num; constructor <;> linarith
    · linarith
    · linarith

end time

namespace time

/-- For every `Duration`, `int64(maxSkew.Seconds())` is the whole number of
seconds of the window (truncated towards zero) or the next whole number
away from zero. -/
theorem skew_between (d : ℤ) (hd : IsInt64 d) :
    (0 ≤ d → d / 1000000000 ≤ truncToInt64 (Seconds d) ∧
      truncToInt64 (Seconds d) ≤ d / 1000000000 + 1) ∧
    (d ≤ 0 → -((-d) / 1000000000) - 1 ≤ truncToInt64 (Seconds d) ∧
      truncToInt64 (Seconds d) ≤ -((-d) / 1000000000)) := by
  unfold IsInt64 at hd
  constructor
  · intro h0
    obtain ⟨⟨hlo, hhi⟩, _⟩ := Seconds_of_nonneg d h0 hd.2
    have hsec0 : (0 : ℚ) ≤ ((d / 1000000000 : ℤ) : ℚ) := by
      exact_mod_cast (show 0 ≤ d / 1000000000 by omega)
    unfold truncToInt64
    rw [if_pos (le_trans hsec0 hlo)]
    have h1 : d / 1000000000 ≤ ⌊Seconds d⌋ := Int.le_floor.mpr hlo
    have h2 : ⌊Seconds d⌋ ≤ d / 1000000000 + 1 := by
      have : ((⌊Seconds d⌋ : ℤ) : ℚ) ≤ ((d / 1000000000 + 1 : ℤ) : ℚ) := by
        push_cast
        exact le_trans (Int.floor_le _) hhi
      exact_mod_cast this
    rw [wrapInt64_of_isInt64 (by unfold IsInt64; omega)]
    exact ⟨h1, h2⟩
  · intro h0
    obtain ⟨⟨hlo, hhi⟩, _⟩ := Seconds_of_nonpos d h0 hd.1
    have hsec0 : ((-((-d) / 1000000000) : ℤ) : ℚ) ≤ 0 := by
      exact_mod_cast (show -((-d) / 1000000000) ≤ 0 by omega)
    unfold truncToInt64
    by_cases hx : 0 ≤ Seconds d
    · rw [if_pos hx]
      have hzero : Seconds d = 0 := le_antisymm (le_trans hhi hsec0) hx
      rw [hzero] at hhi ⊢
      have hs : (0 : ℤ) ≤ -((-d) / 1000000000) := by exact_mod_cast hhi
      rw [Int.floor_zero, wrapInt64_of_isInt64 (by unfold IsInt64; omega)]
      omega
    · rw [if_neg hx]
      have h1 : ⌈Seconds d⌉ ≤ -((-d) / 1000000000) := Int.ceil_le.mpr hhi
      have h2 : -((-d) / 1000000000) - 1 ≤ ⌈Seconds d⌉ := by
        have : ((-((-d) / 1000000000) - 1 : ℤ) : ℚ) ≤ ((⌈Seconds d⌉ : ℤ) : ℚ) := by
          push_cast
          exact le_trans hlo (Int.le_ceil _)
        exact_mod_cast this
      rw [wrapInt64_of_isInt64 (by unfold IsInt64; omega)]
      exact ⟨h2, h1⟩

/-- For a window shorter than `2^23` seconds, `int64(maxSkew.Seconds())` is
the window in whole seconds, truncated towards zero. -/
theorem skew_small (d : ℤ) (h1 : -8388608000000000 < d) (h2 : d < 8388608000000000) :
    truncToInt64 (Seconds d) = Int.tdiv d 1000000000 := by
  have hd : IsInt64 d := by unfold IsInt64; omega
  rcases le_total 0 d with h0 | h0
  · obtain ⟨hb1, _⟩ := (skew_between d hd).1 h0
    obtain ⟨⟨hlo, _⟩, hsm⟩ := Seconds_of_nonneg d h0 (by omega)
    have hhi := hsm h2
    rw [(tdiv_tmod_of_nonneg h0).1]
    have hsec0 : (0 : ℚ) ≤ ((d / 1000000000 : ℤ) : ℚ) := by
      exact_mod_cast (show 0 ≤ d / 1000000000 by omega)
    have hfl : ⌊Seconds d⌋ < d / 1000000000 + 1 := by
      apply Int.floor_lt.mpr
      push_cast
      linarith
    have heq : truncToInt64 (Seconds d) = ⌊Seconds d⌋ := by
      unfold truncToInt64
      rw [if_pos (le_trans hsec0 hlo)]
      have : d / 1000000000 ≤ ⌊Seconds d⌋ := Int.le_floor.mpr hlo
      exact wrapInt64_of_isInt64 (by unfold IsInt64; omega)
    omega
  · obtain ⟨_, hb2⟩ := (skew_between d hd).2 h0
    obtain ⟨⟨_, hhi⟩, hsm⟩ := Seconds_of_nonpos d h0 (by omega)
    have hlo := hsm h1
    rw [(tdiv_tmod_of_nonpos h0).1]
    have hsec0 : ((-((-d) / 1000000000) : ℤ) : ℚ) ≤ 0 := by
      exact_mod_cast (show -((-d) / 1000000000) ≤ 0 by omega)
    by_cases hx : 0 ≤ Seconds d
    · have hzero : Seconds d = 0 := le_antisymm (le_trans hhi hsec0) hx
      rw [hzero] at hhi
      have hs : (0 : ℤ) ≤ -((-d) / 1000000000) := by exact_mod_cast hhi
      unfold truncToInt64
      rw [if_pos hx, hzero, Int.floor_zero, wrapInt64_of_isInt64 (by unfold IsInt64; omega)]
      omega
    · have hcl : -((-d) / 1000000000) - 1 < ⌈Seconds d⌉ := by
        apply Int.lt_ceil.mpr
        push_cast
        push_cast at hlo
        linarith
      have hcu : ⌈Seconds d⌉ ≤ -((-d) / 1000000000) := Int.ceil_le.mpr hhi
      unfold truncToInt64
      rw [if_neg hx, wrapInt64_of_isInt64 (by unfold IsInt64; omega)]
      omega

end time

namespace time

/-- For every `Duration` and every clock value up to `2^62` in magnitude the
two ends of the window are `int64` values. -/
theorem window_isInt64 (d now : ℤ) (hd : IsInt64 d)
    (hnow : -4611686018427387904 ≤ now ∧ now ≤ 4611686018427387904) :
    IsInt64 (now - truncToInt64 (Seconds d)) ∧ IsInt64 (now + truncToInt64 (Seconds d)) := by
  have hb := skew_between d hd
  unfold IsInt64 at hd ⊢
  rcases le_total 0 d with h0 | h0
  · obtain ⟨h1, h2⟩ := hb.1 h0
    constructor <;> constructor <;> omega
  · obtain ⟨h1, h2⟩ := hb.2 h0
    constructor <;> constructor <;> omega

theorem skew_le_neg_one (d : ℤ) (hd : IsInt64 d) (h : d ≤ -1000000000) :
    truncToInt64 (Seconds d) ≤ -1 := by
  obtain ⟨_, h2⟩ := (skew_between d hd).2 (by omega)
  omega

end time

/-! ## Claims on the window arithmetic -/

namespace headers

/-- C16, counterexample: a window of 999 ms is 1 s when rounded to whole
seconds, and with the clock at 1000 the timestamp "1001" lies within 1 s of
it; yet the code, whose bound for this window is 0 s, rejects the request
as out of range. -/
theorem rounded_window_rejects_nearest_second :
    Spec.roundedSeconds 999000000 = 1 ∧
    strconv.ParseInt (ascii "1001") = .ok 1001 ∧
    ((1000 : Int) - 1 ≤ 1001 ∧ (1001 : Int) ≤ 1000 + 1) ∧
    ∀ pr : Primitives,
      VerifyAuthSignature pr 1000 (ascii "k1") (ascii "1001") (ascii "eyJ1IjoxfQ")
        (ComputeAuthSignature pr (ascii "k1") (ascii "1001") (ascii "eyJ1IjoxfQ")) 999000000 =
        some .tsOutOfRange := by
  refine ⟨?_, by rfl, by decide, ?_⟩
  · unfold Spec.roundedSeconds
    rw [round_eq, Int.floor_eq_iff]
    norm_num
  · intro pr
    rw [VerifyAuthSignature_parsed pr 1000 _ _ _ _ _ 1001 (by rfl),
      time.skew_small 999000000 (by norm_num) (by norm_num),
      if_neg (by simp [ComputeAuthSignature_ne_nil]; decide), if_pos (by decide)]

/-- C16, as amended: the bound of the time check is
`int64(maxSkew.Seconds())`, the same on both sides: for every window, and
every clock value up to `2^62` in magnitude, a request with non-empty texts
and a timestamp that parses to `t` is out of range exactly when `t` is not
in `[now - skew, now + skew]`. That bound is the window truncated towards
zero to whole seconds, or the next whole number away from zero; for every
window shorter than `2^23` seconds it is the truncated window. -/
theorem skew_truncates_window (pr : Primitives) (now maxSkew t : Int)
    (secret tsStr claimsB64 sig : List Byte)
    (hclaims : claimsB64 ≠ []) (hsig : sig ≠ [])
    (hparse : strconv.ParseInt tsStr = .ok t)
    (hd : IsInt64 maxSkew)
    (hnow : -4611686018427387904 ≤ now ∧ now ≤ 4611686018427387904) :
    (VerifyAuthSignature pr now secret tsStr claimsB64 sig maxSkew = some .tsOutOfRange ↔
      ¬ (now - time.truncToInt64 (time.Seconds maxSkew) ≤ t ∧
        t ≤ now + time.truncToInt64 (time.Seconds maxSkew))) ∧
    (0 ≤ maxSkew →
      Int.tdiv maxSkew 1000000000 ≤ time.truncToInt64 (time.Seconds maxSkew) ∧
      time.truncToInt64 (time.Seconds maxSkew) ≤ Int.tdiv maxSkew 1000000000 + 1) ∧
    (maxSkew ≤ 0 →
      Int.tdiv maxSkew 1000000000 - 1 ≤ time.truncToInt64 (time.Seconds maxSkew) ∧
      time.truncToInt64 (time.Seconds maxSkew) ≤ Int.tdiv maxSkew 1000000000) ∧
    (-8388608000000000 < maxSkew → maxSkew < 8388608000000000 →
      time.truncToInt64 (time.Seconds maxSkew) = Int.tdiv maxSkew 1000000000) := by
  obtain ⟨hlo, hhi⟩ := time.window_isInt64 maxSkew now hd hnow
  refine ⟨?_, ?_, ?_, time.skew_small maxSkew⟩
  · rw [VerifyAuthSignature_parsed pr now secret tsStr claimsB64 sig maxSkew t hparse,
      if_neg (by simp [hclaims, hsig]), wrapInt64_of_isInt64 hlo, wrapInt64_of_isInt64 hhi]
    by_cases hwin : t > now + time.truncToInt64 (time.Seconds maxSkew) ∨
        t < now - time.truncToInt64 (time.Seconds maxSkew)
    · rw [if_pos hwin]
      simp only [true_iff]
      omega
    · rw [if_neg hwin]
      constructor
      · intro h
        split at h <;> cases h
      · intro h
        omega
  · intro h0
    rw [(time.tdiv_tmod_of_nonneg h0).1]
    exact (time.skew_between maxSkew hd).1 h0
  · intro h0
    rw [(time.tdiv_tmod_of_nonpos h0).1]
    exact (time.skew_between maxSkew hd).2 h0

/-- C16, witness: the bound is 1 s for a window of 1.5 s and 0 s for a window
of 999 ms. -/
theorem skew_truncates_window_witness :
    time.truncToInt64 (time.Seconds 1500000000) = 1 ∧
    time.truncToInt64 (time.Seconds 999000000) = 0 :=
  ⟨((skew_truncates_window Primitives.sample 1000 1500000000 1000 (ascii "k1") (ascii "1000")
      (ascii "eyJ1IjoxfQ") (ascii "AAAA") (by decide) (by decide) (by rfl) (by decide)
      (by decide)).2.2.2 (by decide) (by decide)).trans (by decide),
    ((skew_truncates_window Primitives.sample 1000 999000000 1000 (ascii "k1") (ascii "1000")
      (ascii "eyJ1IjoxfQ") (ascii "AAAA") (by decide) (by decide) (by rfl) (by decide)
      (by decide)).2.2.2 (by decide) (by decide)).trans (by decide)⟩

/-- C20: for every `Duration` and every clock value `now` with
`0 ≤ now ≤ 2^62` the sums `now + skew` and `now - skew` are `int64` values,
and for a window of `-1 s` or less the accepted range is empty:
`VerifyAuthSignature` succeeds for no secret, timestamp, claims and
signature. -/
theorem window_arithmetic_fails_closed (maxSkew now : Int) (hd : IsInt64 maxSkew)
    (hnow : 0 ≤ now ∧ now ≤ 4611686018427387904) :
    IsInt64 (now + time.truncToInt64 (time.Seconds maxSkew)) ∧
    IsInt64 (now - time.truncToInt64 (time.Seconds maxSkew)) ∧
    (maxSkew ≤ -1000000000 →
      ∀ (pr : Primitives) (secret tsStr claimsB64 sig : List Byte),
        VerifyAuthSignature pr now secret tsStr claimsB64 sig maxSkew ≠ none) := by
  obtain ⟨hlo, hhi⟩ := time.window_isInt64 maxSkew now hd ⟨by omega, hnow.2⟩
  refine ⟨hhi, hlo, ?_⟩
  intro hneg pr secret tsStr claimsB64 sig hnone
  have hk := time.skew_le_neg_one maxSkew hd hneg
  obtain ⟨_, ⟨t, _, h1, h2⟩, _⟩ :=
    (VerifyAuthSignature_eq_none_iff pr now secret tsStr claimsB64 sig maxSkew).mp hnone
  rw [wrapInt64_of_isInt64 hlo] at h1
  rw [wrapInt64_of_isInt64 hhi] at h2
  omega

/-- C20, witness: a window of `-1 s` with the clock at 1000. -/
theorem window_arithmetic_fails_closed_witness :
    IsInt64 (1000 + time.truncToInt64 (time.Seconds (-1000000000))) ∧
    IsInt64 (1000 - time.truncToInt64 (time.Seconds (-1000000000))) ∧
    ((-1000000000 : Int) ≤ -1000000000 →
      ∀ (pr : Primitives) (secret tsStr claimsB64 sig : List Byte),
        VerifyAuthSignature pr 1000 secret tsStr claimsB64 sig (-1000000000) ≠ none) :=
  window_arithmetic_fails_closed (-1000000000) 1000 (by decide) (by decide)

end headers
